import Mathlib

/-!
Shallow embedding of the trace-analysis core of servo/perf-analysis-tools,
together with proofs settling the frozen claims C1..C10.

Conventions of the embedding:
* Rust `std::time::Duration` values are modelled as natural numbers (a count
  of the smallest unit appearing in the relevant code path: nanoseconds for
  the Servo traces and the merge engine, microseconds for the Chromium
  traces).  `Duration` arithmetic that cannot underflow on the reachable
  inputs is modelled with truncated natural subtraction.
* Rust `f64` values are modelled by the type `FP`: either an exact rational
  number or the single marker `FP.nan`.  The claims under verification only
  depend on (a) which values enter each statistic, (b) NaN production by
  0.0/0.0 and by the zero divisor n-1, and (c) NaN propagation; they do not
  depend on rounding, infinities or the sign of zero, so exact rational
  arithmetic with an explicit NaN is a faithful carrier for them.  The
  square root, whose exact value is irrational in general, is kept as an
  explicit parameter `sqrtFn`; every theorem quantifies over it.
* Rust `BTreeMap` values are modelled as association lists sorted strictly
  by key, with insertion replacing the value of an equal key; `extend`
  folds insertion over the other map, so a later insertion wins, exactly as
  in `BTreeMap::extend`.
* Rust `usize`/`u64` arithmetic is release-mode arithmetic: overflow wraps.
  The only wrapping subtractions reachable in the claims are modelled
  explicitly (`sub1Wrap`, `u64WrapSub`).
* Rust panics (assert!, assert_eq!) in the Perfetto decoder are modelled as
  a distinguished error constructor `DecodeError.panic`; eyre errors are
  `DecodeError.err`.  Both abort decoding of the sample.
-/

namespace PerfAnalysis

deriving instance DecidableEq for Except

/-! ## A rational model of f64 -/

/-- Model of an f64 value: an exact rational, or the NaN marker. -/
inductive FP where
  | nan : FP
  | val : ℚ → FP
deriving DecidableEq

/-- IEEE addition on the model: NaN propagates, otherwise exact. -/
def fpAdd : FP → FP → FP
  | .nan, _ => .nan
  | _, .nan => .nan
  | .val p, .val q => .val (p + q)

/-- IEEE subtraction on the model: NaN propagates, otherwise exact. -/
def fpSub : FP → FP → FP
  | .nan, _ => .nan
  | _, .nan => .nan
  | .val p, .val q => .val (p - q)

/-- Squaring, modelling `x.powf(2.0)`: NaN propagates, otherwise exact. -/
def fpSq : FP → FP
  | .nan => .nan
  | .val p => .val (p * p)

/-- IEEE division on the model.  NaN propagates; a zero divisor yields NaN.
In the analysed code the only divisions by zero are 0.0/0.0 (empty sum over
a zero count) and 0.0/(n-1) with n = 1, both of which are NaN in IEEE as
well; x/0 for x ≠ 0, which IEEE maps to an infinity, is unreachable there. -/
def fpDiv : FP → FP → FP
  | .nan, _ => .nan
  | _, .nan => .nan
  | .val p, .val q => if q = 0 then .nan else .val (p / q)

/-- Square root applied to the model, parameterised by the value `sqrtFn`
returned on nonnegative rationals (exact square roots are irrational in
general; no claim depends on the returned value).  NaN propagates and a
negative argument yields NaN, as in IEEE. -/
def fpSqrt (sqrtFn : ℚ → ℚ) : FP → FP
  | .nan => .nan
  | .val q => if q < 0 then .nan else .val (sqrtFn q)

/-- Model of `iter().sum::<f64>()`: a left fold of IEEE addition over 0.0. -/
def fpSum (xs : List FP) : FP := xs.foldl fpAdd (.val 0)

/-- Model of `f64::total_cmp`.  On the rational range it is the usual order.
The single NaN of the model is placed below all rationals (the quiet NaN
produced by 0.0/0.0 on x86-64 has its sign bit set, and `total_cmp` orders
negative NaN below every other value); no claim compares NaN against a
rational through `min_by`/`max_by`. -/
def fpTotalCmp : FP → FP → Ordering
  | .nan, .nan => .eq
  | .nan, .val _ => .lt
  | .val _, .nan => .gt
  | .val p, .val q => if p < q then .lt else if q < p then .gt else .eq

/-- Model of `Iterator::min_by`: the first minimal element wrt `cmp`. -/
def minBy (cmp : α → α → Ordering) : List α → Option α
  | [] => none
  | x :: xs => some (xs.foldl (fun acc y => if cmp y acc = .lt then y else acc) x)

/-- Model of `Iterator::max_by`: the last maximal element wrt `cmp`. -/
def maxBy (cmp : α → α → Ordering) : List α → Option α
  | [] => none
  | x :: xs => some (xs.foldl (fun acc y => if cmp acc y = .gt then acc else y) x)

/-- Release-mode `usize` subtraction of 1: for n = 0 the value wraps to
2^64 - 1, otherwise it is n - 1 (all reachable n are far below 2^64). -/
def sub1Wrap (n : ℕ) : ℕ := if n = 0 then 2 ^ 64 - 1 else n - 1

/-- Release-mode `u64` subtraction `a - b` for a, b < 2^64: wraps modulo
2^64 when b > a. -/
def u64WrapSub (a b : ℕ) : ℕ := (a + 2 ^ 64 - b % 2 ^ 64) % 2 ^ 64

/-! ## Metadata maps (BTreeMap<String, DebugAnnotation>) -/

/-- Lexicographic order on lists of characters, compared by code point.
UTF-8 byte order coincides with code-point order, so this is the order
`Ord for String` uses in Rust. -/
def charListLt : List Char → List Char → Bool
  | [], [] => false
  | [], _ :: _ => true
  | _ :: _, [] => false
  | a :: as, b :: bs =>
    if a.val.toNat < b.val.toNat then true
    else if b.val.toNat < a.val.toNat then false
    else charListLt as bs

/-- String comparison used by the BTreeMap models. -/
def strLt (a b : String) : Bool := charListLt a.data b.data

/-- Model of the perfetto_protos `DebugAnnotation` message, restricted to
the fields the repository reads: the annotation name and its string value
(both optional protobuf fields). -/
structure DebugAnnotation where
  daName : Option String := none
  stringValue : Option String := none
deriving DecidableEq

/-- Metadata map: an association list sorted strictly by key, modelling
`BTreeMap<String, DebugAnnotation>`. -/
abbrev Meta := List (String × DebugAnnotation)

/-- Model of `BTreeMap::insert`: keeps the list sorted and replaces the
value stored at an equal key. -/
def Meta.insertKV : Meta → String → DebugAnnotation → Meta
  | [], k, v => [(k, v)]
  | (k', v') :: rest, k, v =>
    if strLt k k' then (k, v) :: (k', v') :: rest
    else if k = k' then (k, v) :: rest
    else (k', v') :: Meta.insertKV rest k v

/-- Model of `BTreeMap::extend`: insert every pair of `other` in order, so
a later pair with an equal key overwrites an earlier value. -/
def Meta.extend (m other : Meta) : Meta :=
  other.foldl (fun acc p => acc.insertKV p.1 p.2) m

/-- Assoc-list lookup (first match), modelling `BTreeMap::get`. -/
def Meta.find? (m : Meta) (k : String) : Option DebugAnnotation :=
  (List.find? (fun p => p.1 = k) m).map (·.2)

/-! ## Canonical events and the interval merge engine (src/summary.rs) -/

/-- Model of `summary::Event`: name, start offset (ns), optional duration
(ns; `none` means instantaneous), and a metadata map. -/
structure Event where
  name : String
  start : ℕ
  duration : Option ℕ
  metadata : Meta
deriving DecidableEq

/-- Model of `Event::end`: start + duration for spans, start itself for
instantaneous events. -/
def Event.endTime (e : Event) : ℕ :=
  match e.duration with
  | some d => e.start + d
  | none => e.start

/-- Sweep-line edge: the opening or the closing endpoint of one event. -/
inductive Edge where
  | start : Edge
  | stop : Edge
deriving DecidableEq

/-- Model of `BTreeMap<Duration, Vec<Edge>>`: entries sorted strictly by
timestamp, each holding the edges pushed at that timestamp in push order. -/
abbrev EdgeMap := List (ℕ × List Edge)

/-- Model of `edges.entry(time).or_default().push(edge)`. -/
def EdgeMap.push : EdgeMap → ℕ → Edge → EdgeMap
  | [], t, e => [(t, [e])]
  | (t', es) :: rest, t, e =>
    if t < t' then (t, [e]) :: (t', es) :: rest
    else if t = t' then (t', es ++ [e]) :: rest
    else (t', es) :: EdgeMap.push rest t e

/-- The first loop of `Event::generate_merged_events`: build the edge map
and the running union of every input event's metadata. -/
def buildEdges (events : List Event) : EdgeMap × Meta :=
  events.foldl
    (fun acc e =>
      (((acc.1.push e.start .start).push e.endTime .stop), acc.2.extend e.metadata))
    ([], [])

/-- Net change of the active count contributed by one timestamp group of
edges.  The Rust loop updates a usize accumulator edge by edge; in release
mode the composite effect on the accumulator is exactly the integer sum of
the individual +1 and -1 deltas (transient wraps cancel), and for edge
maps built by
`buildEdges` the accumulator in fact never goes below zero. -/
def edgeDelta (es : List Edge) : ℤ :=
  es.foldl (fun acc e => match e with | .start => acc + 1 | .stop => acc - 1) 0

/-- The sweep loop of `Event::generate_merged_events`, processing groups of
edges in timestamp order.  `active` is the active count before the group,
`startTime` the recorded open time, `acc` the emitted merged events. -/
def sweepGo (name : String) (md : Meta) (active : ℤ) (startTime : Option ℕ)
    (acc : List Event) : EdgeMap → Except String (List Event)
  | [] => .ok acc
  | (time, es) :: rest =>
    let newActive := active + edgeDelta es
    if active > 0 ∧ newActive = 0 then
      match startTime with
      | none => .error "No start time"
      | some st =>
          sweepGo name md newActive startTime
            (acc ++ [{ name := name, start := st, duration := some (time - st),
                       metadata := md }]) rest
    else if active = 0 ∧ newActive > 0 then
      sweepGo name md newActive (some time) acc rest
    else
      sweepGo name md newActive startTime acc rest

/-- Model of `Event::generate_merged_events`. -/
def Event.generateMergedEvents (events : List Event) (mergedName : String) :
    Except String (List Event) :=
  let built := buildEdges events
  sweepGo mergedName built.2 0 none [] built.1

/-! ## Cross-sample statistics (src/summary.rs, Analysis::summary) -/

/-- Model of `Summary<f64>`. -/
structure Summary where
  n : ℕ
  mean : FP
  stdev : FP
  min : FP
  max : FP
deriving DecidableEq

/-- Model of `Analysis::summary`.  The getter plays the role of the
projection closure (`T: Into<Option<f64>>` covers both the always-defined
and the optional case).  Field by field this mirrors the Rust: xs is the
filtered projection list, mean divides by `n as f64`, the variance divides
by `(n - 1) as f64` (wrapping for n = 0 in release mode), min and max use
`total_cmp` and are the two fallible steps, and the returned `n` field is
`self.individuals.len()`. -/
def Analysis.summary (individuals : List α) (getter : α → Option FP)
    (sqrtFn : ℚ → ℚ) : Except String Summary :=
  let xs := individuals.filterMap getter
  let n := xs.length
  let mean := fpDiv (fpSum xs) (.val n)
  let stdev := fpSqrt sqrtFn
    (fpDiv (fpSum (xs.map (fun x => fpSq (fpSub x mean)))) (.val (sub1Wrap n)))
  match minBy fpTotalCmp xs with
  | none => .error "No minimum"
  | some mn =>
    match maxBy fpTotalCmp xs with
    | none => .error "No maximum"
    | some mx =>
        .ok { n := individuals.length, mean := mean, stdev := stdev,
              min := mn, max := mx }

/-! ## Servo metric extraction (src/servo.rs) -/

namespace Servo

/-- Model of `SampleAnalysis::unique_instantaneous_event_from_first_parse`
(src/servo.rs).  The anchor is the first event named "ScriptParseHTML"
found by `Iterator::find`; zero anchors is an error, two or more are not.
Zero target matches yields an absent metric (`ok none`), two or more are a
hard error; a unique target must be instantaneous and must not start
before the anchor, and the returned event spans from the anchor's start to
the target's start. -/
def uniqueInstantaneousEventFromFirstParse (relevantEvents : List Event)
    (resultName name : String) : Except String (Option Event) :=
  match relevantEvents.find? (fun e => e.name = "ScriptParseHTML") with
  | none => .error "No events with category ScriptParseHTML"
  | some firstParseEvent =>
    match relevantEvents.filter (fun e => e.name = name) with
    | [] => .ok none
    | [event] =>
      if event.duration.isSome then .error "Event is not instantaneous"
      else if event.start < firstParseEvent.start then
        .error "Event is earlier than first ScriptParseHTML event"
      else
        .ok (some { name := resultName, start := firstParseEvent.start,
                    duration := some (event.start - firstParseEvent.start),
                    metadata := event.metadata })
    | _ => .error "Expected exactly one event with name"

end Servo

/-! ## Chromium trace analysis (src/chromium.rs, src/json.rs) -/

namespace Chromium

/-- Minimal model of a serde_json value as read by the accessors in
src/chromium.rs: a string, an object (association list in key order), or
any other JSON value (number, boolean, array, null), which every accessor
used by the code treats alike (as neither a string nor an object). -/
inductive Json where
  | str : String → Json
  | obj : List (String × Json) → Json
  | other : Json

/-- Model of `serde_json::Map::get`. -/
def jsonGet (fields : List (String × Json)) (k : String) : Option Json :=
  (fields.find? (fun p => p.1 = k)).map (·.2)

/-- Model of `Value::as_object`. -/
def Json.asObj? : Json → Option (List (String × Json))
  | .obj fields => some fields
  | _ => none

/-- Model of `Value::as_str`. -/
def Json.asStr? : Json → Option String
  | .str s => some s
  | _ => none

/-- Model of `json::TraceEvent` (src/json.rs), restricted to the fields the
analysed code reads.  Timestamps and durations are microseconds. -/
structure TraceEvent where
  ts : ℕ
  dur : Option ℕ
  ph : String
  s : Option String
  name : String
  cat : String
  args : List (String × Json)

/-- Model of `TraceEvent::document_loader_url`. -/
def TraceEvent.documentLoaderUrl? (e : TraceEvent) : Option String :=
  ((((jsonGet e.args "data").bind Json.asObj?).bind
      (fun m => jsonGet m "documentLoaderURL")).bind Json.asStr?)

/-- Model of `TraceEvent::navigation_id`. -/
def TraceEvent.navigationId? (e : TraceEvent) : Option String :=
  ((((jsonGet e.args "data").bind Json.asObj?).bind
      (fun m => jsonGet m "navigationId")).bind Json.asStr?)

/-- Model of `TraceEvent::frame`: looks under .args.data, then
.args.beginData, for a "frame" member, falling back to the flat
.args.frame, and finally requires a string. -/
def TraceEvent.frame? (e : TraceEvent) : Option String :=
  (((((jsonGet e.args "data").or (jsonGet e.args "beginData")).bind
        Json.asObj?).bind (fun m => jsonGet m "frame")).or
      (jsonGet e.args "frame")).bind Json.asStr?

/-- The scope filter of `analyse_sample` (src/chromium.rs): keep events
whose navigation id or frame id matches the anchor's. -/
def scopeFilter (navigationId frame : String) (events : List TraceEvent) :
    List TraceEvent :=
  events.filter (fun e =>
    e.navigationId? = some navigationId ∨ e.frame? = some frame)

/-- The fixed duplicated-bookkeeping name set of `analyse_sample`. -/
def duplicatedEventNames : List String :=
  ["navigationStart", "responseEnd", "domLoading", "domInteractive",
   "domContentLoadedEventStart", "domContentLoadedEventEnd", "domComplete"]

/-- Model of the `is_duplicated_event_name` closure. -/
def isDuplicatedEventName (name : String) : Bool :=
  (duplicatedEventNames.find? (fun d => d = name)).isSome

/-- The per-name index lists of `indices_by_event_name`: for each name the
indices (in order) of the events bearing it.  The Rust builds a BTreeMap
by inserting, for every event, its name mapped to exactly this list, so a
lookup of the name of any event in the list returns this value. -/
def indicesByName (events : List TraceEvent) (name : String) : List ℕ :=
  (events.enum.filter (fun p => p.2.name = name)).map (·.1)

/-- The first-occurrence removal step of `analyse_sample`: keep the event
at index i unless its name is in the duplicated set and i is the first
index holding that name.  The Rust indexes `indices_by_event_name[name][0]`,
which for an event of the list is exactly the head of its nonempty index
list. -/
def removeFirstOccurrences (events : List TraceEvent) : List TraceEvent :=
  ((events.enum.filter (fun p =>
      !(isDuplicatedEventName p.2.name &&
        p.1 == (indicesByName events p.2.name).headD 0))).map (·.2))

/-- The composed scope-and-deduplicate pipeline of `analyse_sample`,
starting from the chronologically sorted event list. -/
def scopeAndDedup (navigationId frame : String) (events : List TraceEvent) :
    List TraceEvent :=
  removeFirstOccurrences (scopeFilter navigationId frame events)

/-- Model of chromium.rs's `summary::Event` (that file's `Event` has no
metadata field).  Start and duration are microseconds. -/
structure Event where
  name : String
  start : ℕ
  duration : Option ℕ
deriving DecidableEq

/-- Model of `SampleAnalysis::ts_by_name`. -/
def tsByName (relevantEvents : List TraceEvent) (name : String) : List ℕ :=
  (relevantEvents.filter (fun e => e.name = name)).map (·.ts)

/-- Model of `SampleAnalysis::unique_instantaneous_event_from`
(src/chromium.rs).  Both the anchor name and the stop name must match
exactly one event each; any other multiplicity (including zero) is a hard
error.  The duration is the release-mode u64 subtraction of the anchor
timestamp from the stop timestamp: there is no check that the stop is not
earlier than the anchor. -/
def uniqueInstantaneousEventFrom (relevantEvents : List TraceEvent)
    (resultName startName stopName : String) : Except String Event :=
  match tsByName relevantEvents startName with
  | [startTs] =>
    match tsByName relevantEvents stopName with
    | [stopTs] =>
        .ok { name := resultName, start := startTs,
              duration := some (u64WrapSub stopTs startTs) }
    | _ => .error "Expected exactly one event with stop name"
  | _ => .error "Expected exactly one event with start name"

/-- The names `SampleAnalysis::real_events` hides from its output. -/
def hiddenRealEventNames : List String :=
  ["PaintTimingVisualizer::LayoutObjectPainted", "ResourceSendRequest",
   "ResourceReceivedData", "ResourceReceiveResponse"]

/-- Model of `SampleAnalysis::real_events` (src/chromium.rs): fail when
there are no relevant events; otherwise drop the hidden names and re-base
every start to the minimum timestamp over all relevant events (computed
before the hidden names are dropped). -/
def realEvents (relevantEvents : List TraceEvent) :
    Except String (List Event) :=
  match (relevantEvents.map (·.ts)).min? with
  | none => .error "No events"
  | some start =>
      .ok ((relevantEvents.filter (fun e =>
              ((hiddenRealEventNames.find? (fun n => n = e.name)).isNone))).map
            (fun e => { name := e.name, start := e.ts - start,
                        duration := e.dur }))

end Chromium

/-! ## Servo HTML trace decoding (src/servo.rs, src/dom.rs) -/

namespace ServoHtml

/-- Model of `markup5ever_rcdom::NodeData`, restricted to what
`analyse_html_trace` inspects: elements (with their tag name), text nodes
(with their contents), and everything else. -/
inductive NodeData where
  | element : String → NodeData
  | text : String → NodeData
  | other : NodeData

/-- A DOM node: its data and its children. -/
inductive DomNode where
  | mk : NodeData → List DomNode → DomNode

/-- Node data projection. -/
def DomNode.data : DomNode → NodeData
  | .mk d _ => d

/-- Node children projection. -/
def DomNode.children : DomNode → List DomNode
  | .mk _ c => c

mutual

/-- Number of nodes in a tree (termination measure for the traversal). -/
def DomNode.size : DomNode → ℕ
  | .mk _ children => 1 + DomNode.sizeList children

/-- Number of nodes in a forest. -/
def DomNode.sizeList : List DomNode → ℕ
  | [] => 0
  | n :: rest => DomNode.size n + DomNode.sizeList rest

end

theorem DomNode.sizeList_append (a b : List DomNode) :
    DomNode.sizeList (a ++ b) = DomNode.sizeList a + DomNode.sizeList b := by
  induction a with
  | nil => simp [DomNode.sizeList]
  | cons n rest ih => simp [DomNode.sizeList, ih]; omega

/-- Model of `dom::Traverse`: a breadth-first traversal that pops the
front of the queue and appends the popped node's children at the back. -/
def traverse : List DomNode → List DomNode
  | [] => []
  | n :: queue => n :: traverse (queue ++ n.children)
termination_by l => DomNode.sizeList l
decreasing_by
  cases n with
  | mk d c =>
      simp [DomNode.sizeList_append, DomNode.sizeList, DomNode.size,
        DomNode.children]
      omega

/-- The element test of the loop in `analyse_html_trace`: an element node
whose tag name is "script". -/
def isScriptElement (n : DomNode) : Bool :=
  match n.data with
  | .element name => name == "script"
  | _ => false

/-- Model of `str::trim` (drop leading and trailing whitespace). -/
def trimChars (s : String) : String :=
  ⟨((s.data.dropWhile Char.isWhitespace).reverse.dropWhile
      Char.isWhitespace).reverse⟩

/-- Model of `str::strip_prefix`: the remainder when `p` leads `s`. -/
def stripPre (s p : String) : Option String :=
  if p.data.isPrefixOf s.data then some ⟨s.data.drop p.data.length⟩ else none

/-- Model of `str::strip_suffix`: the remainder when `p` ends `s`. -/
def stripSuf (s p : String) : Option String :=
  if p.data.isSuffixOf s.data then
    some ⟨s.data.take (s.data.length - p.data.length)⟩
  else none

/-- Model of the script-extraction phase of `analyse_html_trace`
(src/servo.rs): find the first script element in traversal order, require
its first child to be a text node, strip the expected prefix, optionally
strip the closing "];" (absent when the producing process was terminated
mid-write), and require the result to end in a trailing comma, which is
stripped.  Returns the inner JSON entries text handed to serde. -/
def analyseHtmlTraceScript (document : DomNode) : Except String String :=
  match (traverse [document]).find? isScriptElement with
  | none => .error "Document has no <script>"
  | some node =>
    match node.children with
    | [] => .error "First <script> has no children"
    | kid :: _ =>
      match kid.data with
      | .text contents =>
        match stripPre (trimChars contents) "window.TRACES = [" with
        | none => .error "Failed to strip prefix"
        | some j1 =>
          let j2 := trimChars j1
          let j3 := (stripSuf j2 "];").getD j2
          match stripSuf (trimChars j3) "," with
          | none => .error "Failed to strip trailing comma"
          | some j4 => .ok j4
      | _ => .error "First <script> has non-#text child"

end ServoHtml

/-! ## Perfetto binary trace decoding (src/servo.rs, analyse_perfetto_trace) -/

namespace Perfetto

/-- Track-event payload types distinguished by the decoder. -/
inductive TrackEventType where
  | sliceBegin
  | sliceEnd
  | instant
  | counter
  | unspecified
deriving DecidableEq

/-- Model of a perfetto `TrackEvent`, restricted to the read fields.
Optional fields model protobuf presence; the getters default to 0 / "". -/
structure TrackEvent where
  trackUuid : Option ℕ := none
  tevType : TrackEventType := .unspecified
  name : Option String := none
  debugAnnotations : List DebugAnnotation := []

/-- Model of `trace_packet::Data`: a track event or any other payload. -/
inductive PacketData where
  | trackEvent : TrackEvent → PacketData
  | other : PacketData

/-- Model of a perfetto `TracePacket`, restricted to the read fields. -/
structure TracePacket where
  timestamp : Option ℕ := none
  timestampClockId : Option ℕ := none
  data : Option PacketData := none

/-- Model of the `PendingSlice` struct of `analyse_perfetto_trace`. -/
structure PendingSlice where
  start : ℕ
  event : TrackEvent

/-- Decode failures: Rust panics (assert!, assert_eq!) and eyre errors. -/
inductive DecodeError where
  | panic : String → DecodeError
  | err : String → DecodeError
deriving DecidableEq

/-- The per-track slice stacks (`HashMap<u64, Vec<PendingSlice>>` accessed
only through `entry(..).or_default()`, hence a total function with default
empty stack).  The head of each list is the top of the stack. -/
abbrev Tracks := ℕ → List PendingSlice

/-- Replace the stack of one track. -/
def updateTracks (tracks : Tracks) (uuid : ℕ)
    (stack : List PendingSlice) : Tracks :=
  fun u => if u = uuid then stack else tracks u

/-- One iteration of the packet loop of `analyse_perfetto_trace`: check the
clock id assertion, require a payload, and translate slice begin/end pairs
into events, ignoring every other payload kind. -/
def step (st : Tracks × List Event) (packet : TracePacket) :
    Except DecodeError (Tracks × List Event) :=
  if packet.timestampClockId.isSome then
    .error (.panic "packet.timestamp_clock_id.is_none()")
  else
    match packet.data with
    | none => .error (.err "TracePacket has no data")
    | some .other => .ok st
    | some (.trackEvent event) =>
      let uuid := event.trackUuid.getD 0
      match event.tevType with
      | .sliceBegin =>
          .ok (updateTracks st.1 uuid
                ({ start := packet.timestamp.getD 0, event := event } ::
                  st.1 uuid), st.2)
      | .sliceEnd =>
        match st.1 uuid with
        | [] => .error (.err "Slice stack for track is empty")
        | slice :: rest =>
          if event.name.isSome &&
              !(event.name.getD "" == slice.event.name.getD "") then
            .error (.panic "event.name() == slice.event.name()")
          else
            .ok (updateTracks st.1 uuid rest,
                 st.2 ++ [{ name := slice.event.name.getD "",
                            start := slice.start,
                            duration := some (u64WrapSub
                              (packet.timestamp.getD 0) slice.start),
                            metadata := (slice.event.debugAnnotations.map
                                (fun a => (a.daName.getD "", a))).foldl
                                (fun acc p => acc.insertKV p.1 p.2) [] }])
      | _ => .ok st

/-- The packet loop: fold `step` over the packet list, aborting on the
first decode failure. -/
def runPackets (st : Tracks × List Event) :
    List TracePacket → Except DecodeError (Tracks × List Event)
  | [] => .ok st
  | p :: rest =>
    match step st p with
    | .error e => .error e
    | .ok st' => runPackets st' rest

/-- The decoding phase of `analyse_perfetto_trace`: the `all_events` list
accumulated by running every packet from the empty state. -/
def decodeAllEvents (packets : List TracePacket) :
    Except DecodeError (List Event) :=
  (runPackets (fun _ => [], []) packets).map (·.2)

end Perfetto


/-! ## Statistics helpers and spec-side statistic definitions -/

/-- Mean over a value list, as computed by `Analysis::summary`. -/
def meanOf (xs : List FP) : FP := fpDiv (fpSum xs) (.val xs.length)

/-- Standard deviation over a value list (divisor n-1, wrapping at n = 0),
as computed by `Analysis::summary`. -/
def stdevOf (sqrtFn : ℚ → ℚ) (xs : List FP) : FP :=
  fpSqrt sqrtFn
    (fpDiv (fpSum (xs.map (fun x => fpSq (fpSub x (meanOf xs)))))
      (.val (sub1Wrap xs.length)))

theorem foldl_choice_mem (f : α → α → α)
    (hf : ∀ a b, f a b = a ∨ f a b = b) (x : α) (xs : List α) :
    xs.foldl f x ∈ x :: xs := by
  induction xs generalizing x with
  | nil => simp
  | cons y ys ih =>
    rw [List.foldl_cons]
    rcases hf x y with h | h <;> rw [h]
    · rcases List.mem_cons.mp (ih x) with h' | h' <;> simp [h']
    · rcases List.mem_cons.mp (ih y) with h' | h' <;> simp [h']

theorem minBy_mem (cmp : α → α → Ordering) (xs : List α) (m : α)
    (h : minBy cmp xs = some m) : m ∈ xs := by
  cases xs with
  | nil => simp [minBy] at h
  | cons x rest =>
    simp only [minBy, Option.some.injEq] at h
    subst h
    exact foldl_choice_mem _ (fun a b => by by_cases hc : cmp b a = .lt <;> simp [hc]) x rest

theorem maxBy_mem (cmp : α → α → Ordering) (xs : List α) (m : α)
    (h : maxBy cmp xs = some m) : m ∈ xs := by
  cases xs with
  | nil => simp [maxBy] at h
  | cons x rest =>
    simp only [maxBy, Option.some.injEq] at h
    subst h
    exact foldl_choice_mem _ (fun a b => by by_cases hc : cmp a b = .gt <;> simp [hc]) x rest

/-! ## Claim C1 -/

/-- Claim C1 counterexample: with exactly one contributing sample the code
does not treat the undefined standard deviation as an error; it returns an
ok Summary whose stdev field is silently NaN (the variance is 0.0 divided
by the zero divisor n - 1 = 0). -/
theorem c1_counterexample :
    Analysis.summary [FP.val 3] some (fun q => q) =
      Except.ok { n := 1, mean := .val 3, stdev := .nan, min := .val 3,
                  max := .val 3 } := by
  norm_num [Analysis.summary, fpDiv, fpSum, fpAdd, fpSq, fpSub, fpSqrt,
    fpTotalCmp, minBy, maxBy, sub1Wrap]

/-- Claim C1 (amended): over zero contributing samples `summary` fails
(the missing minimum aborts it, so no 0/NaN summary is returned); over
exactly one contributing value x it returns an ok Summary with
mean = min = max = x whose stdev field is silently NaN rather than an
error. -/
theorem summary_zero_one_contributing (individuals : List α)
    (getter : α → Option FP) (sqrtFn : ℚ → ℚ) :
    (individuals.filterMap getter = [] →
      Analysis.summary individuals getter sqrtFn = .error "No minimum")
    ∧ (∀ x, individuals.filterMap getter = [x] →
        Analysis.summary individuals getter sqrtFn =
          .ok { n := individuals.length, mean := x, stdev := .nan,
                min := x, max := x }) := by
  constructor
  · intro h
    simp [Analysis.summary, h, minBy]
  · intro x h
    cases x with
    | nan =>
      simp [Analysis.summary, h, minBy, maxBy, fpSum, fpAdd, fpSub, fpSq,
        fpDiv, fpSqrt, sub1Wrap]
    | val q =>
      simp [Analysis.summary, h, minBy, maxBy, fpSum, fpAdd, fpSub, fpSq,
        fpDiv, fpSqrt, sub1Wrap]

/-- Witness for the amended C1 theorem at concrete inputs. -/
theorem summary_zero_one_contributing_witness :
    (Analysis.summary ([] : List FP) some (fun q => q) =
      .error "No minimum")
    ∧ Analysis.summary [FP.val 2] some (fun q => q) =
        .ok { n := 1, mean := .val 2, stdev := .nan, min := .val 2,
              max := .val 2 } :=
  ⟨(summary_zero_one_contributing [] some (fun q => q)).1 rfl,
   (summary_zero_one_contributing [FP.val 2] some (fun q => q)).2
      (FP.val 2) rfl⟩

/-! ## Claim C2 -/

/-- Claim C2 counterexample: with two samples of which only one has a
defined projection, the returned n field is 2 (the total number of
individuals), not 1 (the number of contributing values). -/
theorem c2_counterexample :
    Analysis.summary [some (FP.val 1), none] id (fun q => q) =
      Except.ok { n := 2, mean := .val 1, stdev := .nan, min := .val 1,
                  max := .val 1 }
    ∧ ([some (FP.val 1), none].filterMap id).length = 1
    ∧ (2 : ℕ) ≠ 1 := by
  have hfm : List.filterMap id [some (FP.val 1), none] = [FP.val 1] := rfl
  refine ⟨?_, by simp, by decide⟩
  norm_num [Analysis.summary, hfm, fpDiv, fpSum, fpAdd, fpSq, fpSub, fpSqrt,
    fpTotalCmp, minBy, maxBy, sub1Wrap]

/-- Claim C2 (amended): the n field of an ok Summary is the total number
of individuals, including those whose projection is absent (so it can
exceed the number of contributing values, but never |Samples|); mean,
stdev, min and max are computed over exactly the defined values: mean and
stdev are the statistics of the filtered projection list, and min and max
are its first minimum and last maximum under total_cmp (in particular
members of it), which is nonempty whenever summary succeeds. -/
theorem summary_fields_of_ok (individuals : List α)
    (getter : α → Option FP) (sqrtFn : ℚ → ℚ) (s : Summary)
    (h : Analysis.summary individuals getter sqrtFn = .ok s) :
    s.n = individuals.length
    ∧ s.mean = meanOf (individuals.filterMap getter)
    ∧ s.stdev = stdevOf sqrtFn (individuals.filterMap getter)
    ∧ minBy fpTotalCmp (individuals.filterMap getter) = some s.min
    ∧ maxBy fpTotalCmp (individuals.filterMap getter) = some s.max
    ∧ s.min ∈ individuals.filterMap getter
    ∧ s.max ∈ individuals.filterMap getter
    ∧ individuals.filterMap getter ≠ [] := by
  simp only [Analysis.summary] at h
  rcases hmin : minBy fpTotalCmp (individuals.filterMap getter) with _ | mn
  · rw [hmin] at h; simp at h
  rcases hmax : maxBy fpTotalCmp (individuals.filterMap getter) with _ | mx
  · rw [hmin, hmax] at h; simp at h
  rw [hmin, hmax] at h
  simp only [Except.ok.injEq] at h
  subst h
  refine ⟨rfl, rfl, rfl, rfl, rfl, minBy_mem _ _ _ hmin,
    maxBy_mem _ _ _ hmax, ?_⟩
  intro hnil
  rw [hnil] at hmin
  simp [minBy] at hmin

/-- Witness for the amended C2 theorem at a concrete input. -/
theorem summary_fields_of_ok_witness :
    (2 : ℕ) = 2
    ∧ FP.val 1 = meanOf [FP.val 1]
    ∧ FP.nan = stdevOf (fun q => q) [FP.val 1]
    ∧ minBy fpTotalCmp [FP.val 1] = some (.val 1)
    ∧ maxBy fpTotalCmp [FP.val 1] = some (.val 1)
    ∧ FP.val 1 ∈ [FP.val 1]
    ∧ FP.val 1 ∈ [FP.val 1]
    ∧ [FP.val 1] ≠ [] := by
  have hfm : List.filterMap id [some (FP.val 1), none] = [FP.val 1] := rfl
  have h := summary_fields_of_ok [some (FP.val 1), none] id (fun q => q)
    { n := 2, mean := .val 1, stdev := .nan, min := .val 1, max := .val 1 }
    (by norm_num [Analysis.summary, hfm, fpDiv, fpSum, fpAdd, fpSq, fpSub,
      fpSqrt, fpTotalCmp, minBy, maxBy, sub1Wrap])
  simpa [hfm] using h



/-! ## Claim C3 -/

/-- Claim C3 counterexample: the Servo variant does not fail when the
anchor name occurs twice; it silently anchors on the first match and
succeeds (two ScriptParseHTML events at starts 0 and 10, one target at 7;
the metric is computed from the first anchor). -/
theorem c3_counterexample :
    Servo.uniqueInstantaneousEventFromFirstParse
        [⟨"ScriptParseHTML", 0, some 5, []⟩,
         ⟨"ScriptParseHTML", 10, some 5, []⟩,
         ⟨"TimeToFirstPaint", 7, none, []⟩] "FP" "TimeToFirstPaint" =
      .ok (some ⟨"FP", 0, some 7, []⟩)
    ∧ ([⟨"ScriptParseHTML", 0, some 5, []⟩,
        ⟨"ScriptParseHTML", 10, some 5, []⟩,
        (⟨"TimeToFirstPaint", 7, none, []⟩ : Event)].filter
          (fun e => e.name = "ScriptParseHTML")).length = 2 := by
  decide

/-- Claim C3 (amended), covering both cited implementations.  Servo's
variant anchors on the first event named ScriptParseHTML and fails only
when there is none (two or more anchors are not an error); zero target
matches yield an absent metric, two or more a hard error; a unique target
must additionally be instantaneous, must not start before the anchor, and
the result is an Event named result_name with start = anchor.start and
duration = target.start - anchor.start.  Chromium's variant requires the
anchor name and the target name to each match exactly one event; zero or
two-or-more matches of either name are a hard error (zero target matches
are not absent), and the duration is the wrapping u64 subtraction of the
timestamps with no negativity check. -/
theorem unique_relative_metric_behaviour :
    (∀ (events : List Event) (resultName name : String),
      events.find? (fun e => e.name = "ScriptParseHTML") = none →
        Servo.uniqueInstantaneousEventFromFirstParse events resultName name =
          .error "No events with category ScriptParseHTML")
    ∧ (∀ (events : List Event) (resultName name : String) (fp : Event),
        events.find? (fun e => e.name = "ScriptParseHTML") = some fp →
        events.filter (fun e => e.name = name) = [] →
          Servo.uniqueInstantaneousEventFromFirstParse events resultName name =
            .ok none)
    ∧ (∀ (events : List Event) (resultName name : String) (fp e1 e2 : Event)
          (rest : List Event),
        events.find? (fun e => e.name = "ScriptParseHTML") = some fp →
        events.filter (fun e => e.name = name) = e1 :: e2 :: rest →
          Servo.uniqueInstantaneousEventFromFirstParse events resultName name =
            .error "Expected exactly one event with name")
    ∧ (∀ (events : List Event) (resultName name : String) (fp ev : Event)
          (d : ℕ),
        events.find? (fun e => e.name = "ScriptParseHTML") = some fp →
        events.filter (fun e => e.name = name) = [ev] →
        ev.duration = some d →
          Servo.uniqueInstantaneousEventFromFirstParse events resultName name =
            .error "Event is not instantaneous")
    ∧ (∀ (events : List Event) (resultName name : String) (fp ev : Event),
        events.find? (fun e => e.name = "ScriptParseHTML") = some fp →
        events.filter (fun e => e.name = name) = [ev] →
        ev.duration = none →
        ev.start < fp.start →
          Servo.uniqueInstantaneousEventFromFirstParse events resultName name =
            .error "Event is earlier than first ScriptParseHTML event")
    ∧ (∀ (events : List Event) (resultName name : String) (fp ev : Event),
        events.find? (fun e => e.name = "ScriptParseHTML") = some fp →
        events.filter (fun e => e.name = name) = [ev] →
        ev.duration = none →
        ¬ ev.start < fp.start →
          Servo.uniqueInstantaneousEventFromFirstParse events resultName name =
            .ok (some { name := resultName, start := fp.start,
                        duration := some (ev.start - fp.start),
                        metadata := ev.metadata }))
    ∧ (∀ (events : List Chromium.TraceEvent) (rn sn tn : String)
          (sTs tTs : ℕ),
        Chromium.tsByName events sn = [sTs] →
        Chromium.tsByName events tn = [tTs] →
          Chromium.uniqueInstantaneousEventFrom events rn sn tn =
            .ok { name := rn, start := sTs,
                  duration := some (u64WrapSub tTs sTs) })
    ∧ (∀ (events : List Chromium.TraceEvent) (rn sn tn : String) (sTs : ℕ),
        Chromium.tsByName events sn = [sTs] →
        Chromium.tsByName events tn = [] →
          Chromium.uniqueInstantaneousEventFrom events rn sn tn =
            .error "Expected exactly one event with stop name")
    ∧ (∀ (events : List Chromium.TraceEvent) (rn sn tn : String),
        Chromium.tsByName events sn = [] →
          Chromium.uniqueInstantaneousEventFrom events rn sn tn =
            .error "Expected exactly one event with start name")
    ∧ (∀ (events : List Chromium.TraceEvent) (rn sn tn : String)
          (s1 s2 : ℕ) (more : List ℕ),
        Chromium.tsByName events sn = s1 :: s2 :: more →
          Chromium.uniqueInstantaneousEventFrom events rn sn tn =
            .error "Expected exactly one event with start name")
    ∧ (∀ (events : List Chromium.TraceEvent) (rn sn tn : String)
          (sTs t1 t2 : ℕ) (more : List ℕ),
        Chromium.tsByName events sn = [sTs] →
        Chromium.tsByName events tn = t1 :: t2 :: more →
          Chromium.uniqueInstantaneousEventFrom events rn sn tn =
            .error "Expected exactly one event with stop name") := by
  refine ⟨?_, ?_, ?_, ?_, ?_, ?_, ?_, ?_, ?_, ?_, ?_⟩
  · intro events rn n h
    simp only [Servo.uniqueInstantaneousEventFromFirstParse]
    rw [h]
  · intro events rn n fp h1 h2
    simp only [Servo.uniqueInstantaneousEventFromFirstParse]
    rw [h1, h2]
  · intro events rn n fp e1 e2 rest h1 h2
    simp only [Servo.uniqueInstantaneousEventFromFirstParse]
    rw [h1, h2]
  · intro events rn n fp ev d h1 h2 hd
    simp only [Servo.uniqueInstantaneousEventFromFirstParse]
    rw [h1, h2]
    simp [hd]
  · intro events rn n fp ev h1 h2 hd hlt
    simp only [Servo.uniqueInstantaneousEventFromFirstParse]
    rw [h1, h2]
    simp [hd, hlt]
  · intro events rn n fp ev h1 h2 hd hlt
    simp only [Servo.uniqueInstantaneousEventFromFirstParse]
    rw [h1, h2]
    simp [hd, hlt]
  · intro events rn sn tn sTs tTs h1 h2
    simp only [Chromium.uniqueInstantaneousEventFrom]
    rw [h1, h2]
  · intro events rn sn tn sTs h1 h2
    simp only [Chromium.uniqueInstantaneousEventFrom]
    rw [h1, h2]
  · intro events rn sn tn h1
    simp only [Chromium.uniqueInstantaneousEventFrom]
    rw [h1]
  · intro events rn sn tn s1 s2 more h1
    simp only [Chromium.uniqueInstantaneousEventFrom]
    rw [h1]
  · intro events rn sn tn sTs t1 t2 more h1 h2
    simp only [Chromium.uniqueInstantaneousEventFrom]
    rw [h1, h2]

/-- Witness for the amended C3 theorem: one concrete run of every branch
of both variants; in the Chromium success case the target is earlier than
the anchor and the wrapping subtraction is visible in the result; the
final two runs exhibit two anchor matches and two target matches each
rejected. -/
theorem unique_relative_metric_behaviour_witness :
    Servo.uniqueInstantaneousEventFromFirstParse [⟨"A", 0, none, []⟩]
        "FP" "T" = .error "No events with category ScriptParseHTML"
    ∧ Servo.uniqueInstantaneousEventFromFirstParse
        [⟨"ScriptParseHTML", 2, some 3, []⟩] "FP" "T" = .ok none
    ∧ Servo.uniqueInstantaneousEventFromFirstParse
        [⟨"ScriptParseHTML", 2, some 3, []⟩, ⟨"T", 5, none, []⟩,
         ⟨"T", 6, none, []⟩] "FP" "T" =
        .error "Expected exactly one event with name"
    ∧ Servo.uniqueInstantaneousEventFromFirstParse
        [⟨"ScriptParseHTML", 2, some 3, []⟩, ⟨"T", 5, some 1, []⟩] "FP" "T" =
        .error "Event is not instantaneous"
    ∧ Servo.uniqueInstantaneousEventFromFirstParse
        [⟨"ScriptParseHTML", 2, some 3, []⟩, ⟨"T", 1, none, []⟩] "FP" "T" =
        .error "Event is earlier than first ScriptParseHTML event"
    ∧ Servo.uniqueInstantaneousEventFromFirstParse
        [⟨"ScriptParseHTML", 2, some 3, []⟩, ⟨"T", 5, none, []⟩] "FP" "T" =
        .ok (some ⟨"FP", 2, some 3, []⟩)
    ∧ Chromium.uniqueInstantaneousEventFrom
        [⟨10, none, "R", none, "s", "c", []⟩, ⟨4, none, "R", none, "t", "c", []⟩]
        "M" "s" "t" = .ok ⟨"M", 10, some (u64WrapSub 4 10)⟩
    ∧ Chromium.uniqueInstantaneousEventFrom
        [⟨10, none, "R", none, "s", "c", []⟩] "M" "s" "t" =
        .error "Expected exactly one event with stop name"
    ∧ Chromium.uniqueInstantaneousEventFrom ([] : List Chromium.TraceEvent)
        "M" "s" "t" = .error "Expected exactly one event with start name"
    ∧ Chromium.uniqueInstantaneousEventFrom
        [⟨10, none, "R", none, "s", "c", []⟩,
         ⟨11, none, "R", none, "s", "c", []⟩] "M" "s" "t" =
        .error "Expected exactly one event with start name"
    ∧ Chromium.uniqueInstantaneousEventFrom
        [⟨10, none, "R", none, "s", "c", []⟩,
         ⟨4, none, "R", none, "t", "c", []⟩,
         ⟨6, none, "R", none, "t", "c", []⟩] "M" "s" "t" =
        .error "Expected exactly one event with stop name" :=
  ⟨unique_relative_metric_behaviour.1 _ "FP" "T" rfl,
   unique_relative_metric_behaviour.2.1 _ "FP" "T" _ rfl rfl,
   unique_relative_metric_behaviour.2.2.1 _ "FP" "T"
     ⟨"ScriptParseHTML", 2, some 3, []⟩ ⟨"T", 5, none, []⟩ ⟨"T", 6, none, []⟩
     [] rfl rfl,
   unique_relative_metric_behaviour.2.2.2.1 _ "FP" "T"
     ⟨"ScriptParseHTML", 2, some 3, []⟩ ⟨"T", 5, some 1, []⟩ 1 rfl rfl rfl,
   unique_relative_metric_behaviour.2.2.2.2.1 _ "FP" "T"
     ⟨"ScriptParseHTML", 2, some 3, []⟩ ⟨"T", 1, none, []⟩ rfl rfl rfl
     (by decide),
   unique_relative_metric_behaviour.2.2.2.2.2.1 _ "FP" "T"
     ⟨"ScriptParseHTML", 2, some 3, []⟩ ⟨"T", 5, none, []⟩ rfl rfl rfl
     (by decide),
   unique_relative_metric_behaviour.2.2.2.2.2.2.1 _ "M" "s" "t" 10 4 rfl rfl,
   unique_relative_metric_behaviour.2.2.2.2.2.2.2.1 _ "M" "s" "t" 10 rfl rfl,
   unique_relative_metric_behaviour.2.2.2.2.2.2.2.2.1 _ "M" "s" "t" rfl,
   unique_relative_metric_behaviour.2.2.2.2.2.2.2.2.2.1 _ "M" "s" "t" 10 11
     [] rfl,
   unique_relative_metric_behaviour.2.2.2.2.2.2.2.2.2.2 _ "M" "s" "t" 10 4 6
     [] rfl rfl⟩



/-! ## Claim C10 -/

/-- Claim C10: when `real_events` succeeds, no event of its output bears
one of the four hidden names (even if such events are among the scoped
relevant events), and the output is exactly the non-hidden scoped events,
re-based so that every start is the offset from the minimum timestamp over
all scoped relevant events. -/
theorem real_events_hides_names (relevantEvents : List Chromium.TraceEvent)
    (result : List Chromium.Event)
    (h : Chromium.realEvents relevantEvents = .ok result) :
    (∀ ev ∈ result, ev.name ∉ Chromium.hiddenRealEventNames)
    ∧ ∃ start, (relevantEvents.map (·.ts)).min? = some start ∧
        result = (relevantEvents.filter (fun e =>
            ((Chromium.hiddenRealEventNames.find?
                (fun n => n = e.name)).isNone))).map
          (fun e => { name := e.name, start := e.ts - start,
                      duration := e.dur }) := by
  simp only [Chromium.realEvents] at h
  rcases hmin : (relevantEvents.map (·.ts)).min? with _ | start
  · rw [hmin] at h; simp at h
  rw [hmin] at h
  simp only [Except.ok.injEq] at h
  subst h
  refine ⟨?_, start, hmin, rfl⟩
  intro ev hev
  rcases List.mem_map.mp hev with ⟨e, he, hmap⟩
  have hpred := List.of_mem_filter he
  have hname : ev.name = e.name := by rw [← hmap]
  rw [hname]
  intro hmem
  rw [Option.isNone_iff_eq_none, List.find?_eq_none] at hpred
  have hfalse := hpred e.name hmem
  simp at hfalse

/-- Witness for C10: a concrete scoped list containing a hidden-name event
(ResourceSendRequest at the minimum timestamp 5); the output drops it and
re-bases the kept Layout event by 5. -/
theorem real_events_hides_names_witness :
    (∀ ev ∈ [({ name := "Layout", start := 2, duration := some 2 } :
        Chromium.Event)], ev.name ∉ Chromium.hiddenRealEventNames)
    ∧ ∃ start,
        ([(⟨5, none, "R", none, "ResourceSendRequest", "c", []⟩ :
            Chromium.TraceEvent),
          ⟨7, some 2, "X", none, "Layout", "c", []⟩].map (·.ts)).min? =
          some start ∧
        [({ name := "Layout", start := 2, duration := some 2 } :
            Chromium.Event)] =
          ([(⟨5, none, "R", none, "ResourceSendRequest", "c", []⟩ :
              Chromium.TraceEvent),
            ⟨7, some 2, "X", none, "Layout", "c", []⟩].filter (fun e =>
              ((Chromium.hiddenRealEventNames.find?
                  (fun n => n = e.name)).isNone))).map
            (fun e => { name := e.name, start := e.ts - start,
                        duration := e.dur }) :=
  real_events_hides_names
    [⟨5, none, "R", none, "ResourceSendRequest", "c", []⟩,
     ⟨7, some 2, "X", none, "Layout", "c", []⟩]
    [{ name := "Layout", start := 2, duration := some 2 }] rfl

/-! ## Claim C9 -/

/-- Claim C9: the binary track-event decoder keeps a per-track stack.  A
packet with a non-default clock id aborts decoding (the Rust assert!
panic, modelled as a panic error); a begin-type event pushes the packet
timestamp and the event onto its track's stack; an end-type event pops the
stack and appends one Occurrence spanning from the begin timestamp to the
end timestamp, with the begin event's name and annotations; an end event
that carries its own name must agree with the begin event's name: on
agreement the pop and the emission proceed exactly as for a nameless end,
on disagreement decoding aborts (assert_eq! panic); popping an empty
stack is a decode error; track-event payloads other than slice begin/end,
and non-track payloads, change neither the stacks nor the emitted
Occurrences. -/
theorem perfetto_decoder_behaviour :
    (∀ (st : Perfetto.Tracks × List Event) (p : Perfetto.TracePacket)
        (c : ℕ) (rest : List Perfetto.TracePacket),
      p.timestampClockId = some c →
        Perfetto.runPackets st (p :: rest) =
          .error (.panic "packet.timestamp_clock_id.is_none()"))
    ∧ (∀ (st : Perfetto.Tracks × List Event) (ev : Perfetto.TrackEvent)
          (t u : ℕ),
        ev.tevType = .sliceBegin → ev.trackUuid = some u →
          Perfetto.step st { timestamp := some t, timestampClockId := none,
                             data := some (.trackEvent ev) } =
            .ok (Perfetto.updateTracks st.1 u
                  ({ start := t, event := ev } :: st.1 u), st.2))
    ∧ (∀ (st : Perfetto.Tracks × List Event) (ev : Perfetto.TrackEvent)
          (t u : ℕ) (slice : Perfetto.PendingSlice)
          (stack : List Perfetto.PendingSlice),
        ev.tevType = .sliceEnd → ev.trackUuid = some u →
        st.1 u = slice :: stack →
        ev.name = none →
          Perfetto.step st { timestamp := some t, timestampClockId := none,
                             data := some (.trackEvent ev) } =
            .ok (Perfetto.updateTracks st.1 u stack,
                 st.2 ++ [{ name := slice.event.name.getD "",
                            start := slice.start,
                            duration := some (u64WrapSub t slice.start),
                            metadata := (slice.event.debugAnnotations.map
                                (fun a => (a.daName.getD "", a))).foldl
                                (fun acc p => acc.insertKV p.1 p.2) [] }]))
    ∧ (∀ (st : Perfetto.Tracks × List Event) (ev : Perfetto.TrackEvent)
          (t u : ℕ),
        ev.tevType = .sliceEnd → ev.trackUuid = some u →
        st.1 u = [] →
          Perfetto.step st { timestamp := some t, timestampClockId := none,
                             data := some (.trackEvent ev) } =
            .error (.err "Slice stack for track is empty"))
    ∧ (∀ (st : Perfetto.Tracks × List Event) (ev : Perfetto.TrackEvent)
          (t u : ℕ) (n : String) (slice : Perfetto.PendingSlice)
          (stack : List Perfetto.PendingSlice),
        ev.tevType = .sliceEnd → ev.trackUuid = some u →
        st.1 u = slice :: stack →
        ev.name = some n → n ≠ slice.event.name.getD "" →
          Perfetto.step st { timestamp := some t, timestampClockId := none,
                             data := some (.trackEvent ev) } =
            .error (.panic "event.name() == slice.event.name()"))
    ∧ (∀ (st : Perfetto.Tracks × List Event) (ev : Perfetto.TrackEvent)
          (t u : ℕ) (n : String) (slice : Perfetto.PendingSlice)
          (stack : List Perfetto.PendingSlice),
        ev.tevType = .sliceEnd → ev.trackUuid = some u →
        st.1 u = slice :: stack →
        ev.name = some n → n = slice.event.name.getD "" →
          Perfetto.step st { timestamp := some t, timestampClockId := none,
                             data := some (.trackEvent ev) } =
            .ok (Perfetto.updateTracks st.1 u stack,
                 st.2 ++ [{ name := slice.event.name.getD "",
                            start := slice.start,
                            duration := some (u64WrapSub t slice.start),
                            metadata := (slice.event.debugAnnotations.map
                                (fun a => (a.daName.getD "", a))).foldl
                                (fun acc p => acc.insertKV p.1 p.2) [] }]))
    ∧ (∀ (st : Perfetto.Tracks × List Event) (ev : Perfetto.TrackEvent)
          (t : ℕ),
        ev.tevType ≠ .sliceBegin → ev.tevType ≠ .sliceEnd →
          Perfetto.step st { timestamp := some t, timestampClockId := none,
                             data := some (.trackEvent ev) } = .ok st)
    ∧ (∀ (st : Perfetto.Tracks × List Event) (t : ℕ),
        Perfetto.step st { timestamp := some t, timestampClockId := none,
                           data := some .other } = .ok st)
    ∧ (∀ (t1 t2 u : ℕ) (name : String) (annots : List DebugAnnotation),
        Perfetto.decodeAllEvents
            [⟨some t1, none, some (.trackEvent ⟨some u, .sliceBegin, some name, annots⟩)⟩,
             ⟨some t2, none, some (.trackEvent ⟨some u, .sliceEnd, none, []⟩)⟩] =
          .ok [{ name := name, start := t1,
                 duration := some (u64WrapSub t2 t1),
                 metadata := (annots.map (fun a => (a.daName.getD "", a))).foldl
                   (fun acc p => acc.insertKV p.1 p.2) [] }]) := by
  refine ⟨?_, ?_, ?_, ?_, ?_, ?_, ?_, ?_, ?_⟩
  · intro st p c rest h
    simp [Perfetto.runPackets, Perfetto.step, h]
  · intro st ev t u htype huuid
    simp [Perfetto.step, htype, huuid]
  · intro st ev t u slice stack htype huuid hstack hname
    simp only [Perfetto.step]
    simp only [Option.isSome_none, Bool.false_eq_true, if_false, huuid,
      Option.getD_some, htype]
    rw [hstack]
    simp [hname]
  · intro st ev t u htype huuid hstack
    simp only [Perfetto.step]
    simp only [Option.isSome_none, Bool.false_eq_true, if_false, huuid,
      Option.getD_some, htype]
    rw [hstack]
  · intro st ev t u n slice stack htype huuid hstack hname hne
    simp only [Perfetto.step]
    simp only [Option.isSome_none, Bool.false_eq_true, if_false, huuid,
      Option.getD_some, htype]
    rw [hstack]
    simp [hname, hne]
  · intro st ev t u n slice stack htype huuid hstack hname heq
    simp only [Perfetto.step]
    simp only [Option.isSome_none, Bool.false_eq_true, if_false, huuid,
      Option.getD_some, htype]
    rw [hstack]
    simp [hname, heq]
  · intro st ev t h1 h2
    cases htype : ev.tevType <;>
      simp_all [Perfetto.step]
  · intro st t
    simp [Perfetto.step]
  · intro t1 t2 u name annots
    simp [Perfetto.decodeAllEvents, Perfetto.runPackets, Perfetto.step,
      Perfetto.updateTracks, Except.map]

/-- Witness for C9: every branch of the decoder exercised at concrete
packets, including a clock-id rejection, an empty-stack pop, a name
mismatch, a matching-name end that pops and emits, an ignored payload,
and a complete begin/end pair. -/
theorem perfetto_decoder_behaviour_witness :
    Perfetto.runPackets (fun _ => [], [])
        [⟨some 1, some 3, some .other⟩] =
      .error (.panic "packet.timestamp_clock_id.is_none()")
    ∧ Perfetto.step (fun _ => [], [])
        ⟨some 4, none, some (.trackEvent ⟨some 9, .sliceBegin, some "S", []⟩)⟩ =
        .ok (Perfetto.updateTracks (fun _ => []) 9
              [⟨4, ⟨some 9, .sliceBegin, some "S", []⟩⟩],
             [])
    ∧ Perfetto.step (fun _ => [], [])
        ⟨some 4, none, some (.trackEvent ⟨some 9, .sliceEnd, none, []⟩)⟩ =
        .error (.err "Slice stack for track is empty")
    ∧ Perfetto.step
        (fun _ => [⟨2, ⟨some 9, .sliceBegin, some "S", []⟩⟩], [])
        ⟨some 4, none, some (.trackEvent ⟨some 9, .sliceEnd, some "T", []⟩)⟩ =
        .error (.panic "event.name() == slice.event.name()")
    ∧ Perfetto.step
        (fun _ => [⟨2, ⟨some 9, .sliceBegin, some "S", []⟩⟩], [])
        ⟨some 4, none, some (.trackEvent ⟨some 9, .sliceEnd, some "S", []⟩)⟩ =
        .ok (Perfetto.updateTracks
              (fun _ => [⟨2, ⟨some 9, .sliceBegin, some "S", []⟩⟩]) 9 [],
             [{ name := "S", start := 2, duration := some (u64WrapSub 4 2),
                metadata := [] }])
    ∧ Perfetto.step (fun _ => [], [])
        ⟨some 4, none, some (.trackEvent ⟨some 9, .instant, some "S", []⟩)⟩ =
        .ok (fun _ => [], [])
    ∧ Perfetto.decodeAllEvents
        [⟨some 10, none, some (.trackEvent ⟨some 9, .sliceBegin, some "S", []⟩)⟩,
         ⟨some 25, none, some (.trackEvent ⟨some 9, .sliceEnd, none, []⟩)⟩] =
        .ok [{ name := "S", start := 10, duration := some (u64WrapSub 25 10),
               metadata := [] }] :=
  ⟨perfetto_decoder_behaviour.1 (fun _ => [], []) _ 3 [] rfl,
   perfetto_decoder_behaviour.2.1 (fun _ => [], []) _ 4 9 rfl rfl,
   perfetto_decoder_behaviour.2.2.2.1 (fun _ => [], []) _ 4 9 rfl rfl rfl,
   perfetto_decoder_behaviour.2.2.2.2.1
     (fun _ => [⟨2, ⟨some 9, .sliceBegin, some "S", []⟩⟩], [])
     _ 4 9 "T" _ _ rfl rfl rfl rfl (by decide),
   by
     have h := perfetto_decoder_behaviour.2.2.2.2.2.1
       (fun _ => [⟨2, ⟨some 9, .sliceBegin, some "S", []⟩⟩], [])
       ⟨some 9, .sliceEnd, some "S", []⟩ 4 9 "S"
       ⟨2, ⟨some 9, .sliceBegin, some "S", []⟩⟩ [] rfl rfl rfl rfl rfl
     simpa using h,
   perfetto_decoder_behaviour.2.2.2.2.2.2.1 (fun _ => [], []) _ 4
     (by decide) (by decide),
   by
     have h := perfetto_decoder_behaviour.2.2.2.2.2.2.2.2 10 25 9 "S" []
     simpa using h⟩



/-! ## Claim C8 -/

theorem isPrefixOf_append_self (p b : List Char) :
    p.isPrefixOf (p ++ b) = true := by
  induction p with
  | nil => simp [List.isPrefixOf]
  | cons a as ih => simp [List.isPrefixOf, ih]

theorem isSuffixOf_append_self (p b : List Char) :
    p.isSuffixOf (b ++ p) = true := by
  simp only [List.isSuffixOf, List.reverse_append]
  exact isPrefixOf_append_self p.reverse b.reverse

theorem stripPre_append (s p : String) (b : List Char)
    (h : s.data = p.data ++ b) : ServoHtml.stripPre s p = some ⟨b⟩ := by
  simp only [ServoHtml.stripPre, h, isPrefixOf_append_self, if_true]
  simp [List.drop_left]

theorem stripSuf_append (s p : String) (b : List Char)
    (h : s.data = b ++ p.data) : ServoHtml.stripSuf s p = some ⟨b⟩ := by
  simp only [ServoHtml.stripSuf, h, isSuffixOf_append_self, if_true]
  simp

/-- Claim C8: the embedded-script decoder fails when no script element of
the expected shape exists (no script element in traversal order, a script
with no child, or a script whose first child is not a text node); given
the text body of the first script element it strips the expected opening
prefix, then the expected closing "];" when present, and finally a
required trailing comma; when the closing "];" is missing (truncated
file) the trimmed body with its trailing comma stripped is accepted and
its entries are what is decoded. -/
theorem html_script_decoder_behaviour :
    (∀ root : ServoHtml.DomNode,
      (∀ n ∈ ServoHtml.traverse [root], ServoHtml.isScriptElement n = false) →
        ServoHtml.analyseHtmlTraceScript root =
          .error "Document has no <script>")
    ∧ (∀ (root node : ServoHtml.DomNode),
        (ServoHtml.traverse [root]).find? ServoHtml.isScriptElement =
          some node →
        node.children = [] →
          ServoHtml.analyseHtmlTraceScript root =
            .error "First <script> has no children")
    ∧ (∀ (root node kid : ServoHtml.DomNode)
          (rest : List ServoHtml.DomNode),
        (ServoHtml.traverse [root]).find? ServoHtml.isScriptElement =
          some node →
        node.children = kid :: rest →
        (∀ c, kid.data ≠ .text c) →
          ServoHtml.analyseHtmlTraceScript root =
            .error "First <script> has non-#text child")
    ∧ (∀ (root node kid : ServoHtml.DomNode)
          (rest : List ServoHtml.DomNode) (contents : String)
          (body core final : List Char),
        (ServoHtml.traverse [root]).find? ServoHtml.isScriptElement =
          some node →
        node.children = kid :: rest →
        kid.data = .text contents →
        (ServoHtml.trimChars contents).data =
          "window.TRACES = [".data ++ body →
        (ServoHtml.trimChars ⟨body⟩).data = core ++ "];".data →
        (ServoHtml.trimChars ⟨core⟩).data = final ++ ",".data →
          ServoHtml.analyseHtmlTraceScript root = .ok ⟨final⟩)
    ∧ (∀ (root node kid : ServoHtml.DomNode)
          (rest : List ServoHtml.DomNode) (contents : String)
          (body final : List Char),
        (ServoHtml.traverse [root]).find? ServoHtml.isScriptElement =
          some node →
        node.children = kid :: rest →
        kid.data = .text contents →
        (ServoHtml.trimChars contents).data =
          "window.TRACES = [".data ++ body →
        "];".data.isSuffixOf (ServoHtml.trimChars ⟨body⟩).data = false →
        (ServoHtml.trimChars (ServoHtml.trimChars ⟨body⟩)).data =
          final ++ ",".data →
          ServoHtml.analyseHtmlTraceScript root = .ok ⟨final⟩) := by
  refine ⟨?_, ?_, ?_, ?_, ?_⟩
  · intro root h
    have hfind : (ServoHtml.traverse [root]).find?
        ServoHtml.isScriptElement = none := by
      rw [List.find?_eq_none]
      intro n hn
      simp [h n hn]
    simp only [ServoHtml.analyseHtmlTraceScript]
    rw [hfind]
  · intro root node hfind hkids
    simp only [ServoHtml.analyseHtmlTraceScript, hfind, hkids]
  · intro root node kid rest hfind hkids hdata
    simp only [ServoHtml.analyseHtmlTraceScript, hfind, hkids]
  · intro root node kid rest contents body core final hfind hkids hdata
      hpre hsuf hcomma
    simp only [ServoHtml.analyseHtmlTraceScript, hfind, hkids, hdata]
    simp only [stripPre_append _ _ _ hpre]
    simp only [show ServoHtml.stripSuf (ServoHtml.trimChars ⟨body⟩) "];" =
      some ⟨core⟩ from stripSuf_append _ _ _ hsuf, Option.getD_some]
    simp only [stripSuf_append _ _ _ hcomma]
  · intro root node kid rest contents body final hfind hkids hdata hpre
      hnosuf hcomma
    simp only [ServoHtml.analyseHtmlTraceScript, hfind, hkids, hdata]
    simp only [stripPre_append _ _ _ hpre]
    simp only [show ServoHtml.stripSuf (ServoHtml.trimChars ⟨body⟩) "];" =
      none by simp [ServoHtml.stripSuf, hnosuf], Option.getD_none]
    simp only [stripSuf_append _ _ _ hcomma]

/-- Witness for C8: concrete documents exercising every branch: a
script-free document, a childless script, a script with an element child,
a complete body "window.TRACES = [10,20,];" decoding to "10,20", and a
truncated body "window.TRACES = [10,20," decoding to "10,20". -/
theorem html_script_decoder_behaviour_witness :
    ServoHtml.analyseHtmlTraceScript (.mk (.element "div") []) =
      .error "Document has no <script>"
    ∧ ServoHtml.analyseHtmlTraceScript (.mk (.element "script") []) =
      .error "First <script> has no children"
    ∧ ServoHtml.analyseHtmlTraceScript
        (.mk (.element "script") [.mk (.element "b") []]) =
      .error "First <script> has non-#text child"
    ∧ ServoHtml.analyseHtmlTraceScript
        (.mk .other [.mk (.element "script")
          [.mk (.text " window.TRACES = [10,20,]; ") []]]) = .ok ⟨"10,20".data⟩
    ∧ ServoHtml.analyseHtmlTraceScript
        (.mk .other [.mk (.element "script")
          [.mk (.text "window.TRACES = [10,20,") []]]) = .ok ⟨"10,20".data⟩ := by
  refine ⟨?_, ?_, ?_, ?_, ?_⟩
  · exact html_script_decoder_behaviour.1 _ (by
      intro n hn
      simp only [ServoHtml.traverse, ServoHtml.DomNode.children,
        List.nil_append, List.mem_singleton] at hn
      subst hn
      rfl)
  · exact html_script_decoder_behaviour.2.1 _ (.mk (.element "script") [])
      (by simp [ServoHtml.traverse, ServoHtml.isScriptElement,
        ServoHtml.DomNode.data]) rfl
  · exact html_script_decoder_behaviour.2.2.1 _
      (.mk (.element "script") [.mk (.element "b") []]) (.mk (.element "b") [])
      [] (by simp [ServoHtml.traverse, ServoHtml.isScriptElement,
        ServoHtml.DomNode.data]) rfl (by intro c h; cases h)
  · exact html_script_decoder_behaviour.2.2.2.1 _
      (.mk (.element "script") [.mk (.text " window.TRACES = [10,20,]; ") []])
      (.mk (.text " window.TRACES = [10,20,]; ") []) []
      " window.TRACES = [10,20,]; " "10,20,];".data "10,20,".data "10,20".data
      (by simp [ServoHtml.traverse, ServoHtml.isScriptElement,
        ServoHtml.DomNode.data, ServoHtml.DomNode.children, List.find?])
      rfl rfl (by decide) (by decide) (by decide)
  · exact html_script_decoder_behaviour.2.2.2.2 _
      (.mk (.element "script") [.mk (.text "window.TRACES = [10,20,") []])
      (.mk (.text "window.TRACES = [10,20,") []) []
      "window.TRACES = [10,20," "10,20,".data "10,20".data
      (by simp [ServoHtml.traverse, ServoHtml.isScriptElement,
        ServoHtml.DomNode.data, ServoHtml.DomNode.children, List.find?])
      rfl rfl (by decide) (by decide) (by decide)



/-! ## Claim C7 -/

/-- Specification-side single-name erasure: remove the first event bearing
`name`, keep everything else. -/
def eraseFirstWithName (name : String) :
    List Chromium.TraceEvent → List Chromium.TraceEvent
  | [] => []
  | e :: rest =>
    if e.name = name then rest else e :: eraseFirstWithName name rest

/-- Specification-side walk of the duplicated-bookkeeping removal: an
event is dropped exactly when its name is in the duplicated set and no
earlier event bore that name (`seen` is the set of names already passed);
every later occurrence and every name outside the set is kept. -/
def dropFirstOfEach (seen : List String) :
    List Chromium.TraceEvent → List Chromium.TraceEvent
  | [] => []
  | e :: rest =>
    if Chromium.isDuplicatedEventName e.name && !(seen.contains e.name) then
      dropFirstOfEach (e.name :: seen) rest
    else
      e :: dropFirstOfEach (e.name :: seen) rest

/-- Index lists starting from base index n, the generalisation of
`indicesByName` used in the proofs. -/
def idxFrom (n : ℕ) (l : List Chromium.TraceEvent) (name : String) :
    List ℕ :=
  ((List.enumFrom n l).filter (fun p => p.2.name = name)).map (·.1)

theorem idxFrom_nil (n : ℕ) (name : String) : idxFrom n [] name = [] := rfl

theorem idxFrom_cons (n : ℕ) (a : Chromium.TraceEvent)
    (l : List Chromium.TraceEvent) (name : String) :
    idxFrom n (a :: l) name =
      if a.name = name then n :: idxFrom (n + 1) l name
      else idxFrom (n + 1) l name := by
  simp only [idxFrom, List.enumFrom, List.filter]
  by_cases h : a.name = name <;> simp [h]

theorem idxFrom_shift (l : List Chromium.TraceEvent) :
    ∀ (n : ℕ) (name : String),
      idxFrom (n + 1) l name = (idxFrom n l name).map (· + 1) := by
  induction l with
  | nil => intro n name; simp [idxFrom_nil]
  | cons a rest ih =>
    intro n name
    rw [idxFrom_cons, idxFrom_cons]
    by_cases h : a.name = name <;> simp [h, ih]

theorem idxFrom_ne_nil (q : List Chromium.TraceEvent)
    (e : Chromium.TraceEvent) (rest : List Chromium.TraceEvent) :
    ∀ n, idxFrom n (q ++ e :: rest) e.name ≠ [] := by
  induction q with
  | nil =>
    intro n
    rw [List.nil_append, idxFrom_cons]
    simp
  | cons a q' ih =>
    intro n
    rw [List.cons_append, idxFrom_cons]
    by_cases h : a.name = e.name <;> simp [h, ih]

/-- The head of the index list of e.name within q ++ e :: rest is the
position of e precisely when no event of the prefix q bears e.name. -/
theorem head_idx_iff (e : Chromium.TraceEvent)
    (rest : List Chromium.TraceEvent) :
    ∀ (q : List Chromium.TraceEvent),
      ((idxFrom 0 (q ++ e :: rest) e.name).headD 0 = q.length ↔
        ∀ x ∈ q, x.name ≠ e.name) := by
  intro q
  induction q with
  | nil =>
    rw [List.nil_append, idxFrom_cons]
    simp
  | cons a q' ih =>
    rw [List.cons_append, idxFrom_cons]
    by_cases h : a.name = e.name
    · simp [h]
    · rw [if_neg h, idxFrom_shift]
      rcases hne : idxFrom 0 (q' ++ e :: rest) e.name with _ | ⟨i, is⟩
      · exact absurd hne (idxFrom_ne_nil q' e rest 0)
      · rw [hne] at ih
        simp only [List.map_cons, List.headD_cons] at ih ⊢
        constructor
        · intro hlen x hx
          rcases List.mem_cons.mp hx with hxa | hxq
          · rw [hxa]; exact h
          · exact (ih.mp (by simpa using hlen)) x hxq
        · intro hall
          have := ih.mpr (fun x hx => hall x (List.mem_cons_of_mem a hx))
          simp [this]

/-- Contains on a string list is decidable membership. -/
theorem contains_eq_decide_mem (s : List String) (x : String) :
    s.contains x = decide (x ∈ s) :=
  List.elem_eq_mem x s

/-- Membership-congruence for the walk: only membership of `seen` matters. -/
theorem dropFirstOfEach_congr (l : List Chromium.TraceEvent) :
    ∀ (s₁ s₂ : List String), (∀ x, s₁.contains x = s₂.contains x) →
      dropFirstOfEach s₁ l = dropFirstOfEach s₂ l := by
  induction l with
  | nil => intro s₁ s₂ _; rfl
  | cons e rest ih =>
    intro s₁ s₂ hmem
    have hnext : ∀ x, (e.name :: s₁).contains x =
        (e.name :: s₂).contains x := by
      intro x
      simp only [List.contains_cons, hmem x]
    simp only [dropFirstOfEach, hmem e.name, ih _ _ hnext]

/-- The generalised equivalence between the index-based filter of the
implementation and the specification walk, over any split of the full
list into a processed prefix q and a remaining suffix l. -/
theorem removeFirst_walk (full : List Chromium.TraceEvent) :
    ∀ (l q : List Chromium.TraceEvent), full = q ++ l →
      ((List.enumFrom q.length l).filter (fun p =>
          !(Chromium.isDuplicatedEventName p.2.name &&
            p.1 == (Chromium.indicesByName full p.2.name).headD 0))).map
        (·.2) = dropFirstOfEach (q.map (·.name)) l := by
  intro l
  induction l with
  | nil => intro q hq; rfl
  | cons e rest ih =>
    intro q hq
    have hidx : Chromium.indicesByName full e.name =
        idxFrom 0 (q ++ e :: rest) e.name := by rw [hq]; rfl
    have hmemiff : ((idxFrom 0 (q ++ e :: rest) e.name).headD 0 = q.length ↔
        ∀ x ∈ q, x.name ≠ e.name) := head_idx_iff e rest q
    have hih := ih (q ++ [e]) (by simp [hq])
    have hseen : ((q ++ [e]).map (·.name)) = q.map (·.name) ++ [e.name] := by
      simp
    have hlen : (q ++ [e]).length = q.length + 1 := by simp
    rw [hseen, hlen] at hih
    have hcongr := dropFirstOfEach_congr rest
      (q.map (·.name) ++ [e.name]) (e.name :: q.map (·.name))
      (by intro x
          rw [contains_eq_decide_mem, contains_eq_decide_mem]
          simp only [decide_eq_decide, List.mem_append, List.mem_cons,
            List.mem_singleton]
          tauto)
    rw [hcongr] at hih
    rw [List.enumFrom]
    rw [List.filter_cons]
    dsimp only
    by_cases hdup : Chromium.isDuplicatedEventName e.name
    · by_cases hfirst : (idxFrom 0 (q ++ e :: rest) e.name).headD 0 = q.length
      · have hkeep : (!(Chromium.isDuplicatedEventName e.name &&
            q.length == (Chromium.indicesByName full e.name).headD 0)) =
              false := by
          rw [hidx, hfirst]
          simp [hdup]
        have hall := hmemiff.mp hfirst
        have hnotseen : (q.map (·.name)).contains e.name = false := by
          rw [contains_eq_decide_mem]
          simp only [decide_eq_false_iff_not, List.mem_map, not_exists]
          intro x
          rintro ⟨hx, hn⟩
          exact hall x hx hn
        simp only [hkeep, Bool.false_eq_true, if_false]
        simp only [dropFirstOfEach, hdup, hnotseen, Bool.not_false,
          Bool.true_and, if_true]
        exact hih
      · have hkeep : (!(Chromium.isDuplicatedEventName e.name &&
            q.length == (Chromium.indicesByName full e.name).headD 0)) =
              true := by
          rw [hidx]
          rcases hb : (q.length ==
              (idxFrom 0 (q ++ e :: rest) e.name).headD 0) with _ | _
          · simp [hb]
          · exact absurd (eq_of_beq hb).symm hfirst
        have hseen' : (q.map (·.name)).contains e.name = true := by
          rw [contains_eq_decide_mem]
          simp only [decide_eq_true_eq, List.mem_map]
          by_contra hn
          push_neg at hn
          exact hfirst (hmemiff.mpr (fun x hx heq => hn x hx heq))
        simp only [hkeep, if_true]
        simp only [dropFirstOfEach, hdup, hseen', Bool.not_true,
          Bool.true_and, Bool.and_false, Bool.false_eq_true, if_false,
          List.map_cons]
        rw [hih]
    · have hdupf : Chromium.isDuplicatedEventName e.name = false := by
        simpa using hdup
      have hkeep : (!(Chromium.isDuplicatedEventName e.name &&
          q.length == (Chromium.indicesByName full e.name).headD 0)) =
            true := by
        simp [hdupf]
      simp only [hkeep, if_true]
      simp only [dropFirstOfEach, hdupf, Bool.false_and, Bool.false_eq_true,
        if_false, List.map_cons]
      rw [hih]

/-- Claim C7: after scoping retains the Occurrences whose navigation id or
frame id matches the anchor's, the first-occurrence removal drops exactly
the chronologically first retained Occurrence of each name in the fixed
duplicated-bookkeeping set and keeps every later Occurrence of such a
name; Occurrences with names outside the set are kept unchanged.  This is
expressed by equivalence with the specification walk `dropFirstOfEach`,
which drops an event precisely when its name is in the set and unseen in
the prefix. -/
theorem scope_dedup_drops_first :
    (∀ events : List Chromium.TraceEvent,
      Chromium.removeFirstOccurrences events = dropFirstOfEach [] events)
    ∧ (∀ (navigationId frame : String)
          (events : List Chromium.TraceEvent),
        Chromium.scopeAndDedup navigationId frame events =
          dropFirstOfEach []
            (Chromium.scopeFilter navigationId frame events)) := by
  have hmain : ∀ events : List Chromium.TraceEvent,
      Chromium.removeFirstOccurrences events = dropFirstOfEach [] events := by
    intro events
    have h := removeFirst_walk events events [] rfl
    simpa [Chromium.removeFirstOccurrences, List.enum] using h
  exact ⟨hmain, fun nid frame events => hmain _⟩



/-! ## Merge-engine analysis: the sweep depends only on per-time deltas -/

/-- Per-edge contribution to the active count. -/
def Edge.delta : Edge → ℤ
  | .start => 1
  | .stop => -1

/-- The sweep loop expressed on (time, net delta) profiles. -/
def sweepSpec (name : String) (md : Meta) (active : ℤ) (startTime : Option ℕ)
    (acc : List Event) : List (ℕ × ℤ) → Except String (List Event)
  | [] => .ok acc
  | (time, d) :: rest =>
    if active > 0 ∧ active + d = 0 then
      match startTime with
      | none => .error "No start time"
      | some st =>
          sweepSpec name md (active + d) startTime
            (acc ++ [{ name := name, start := st, duration := some (time - st),
                       metadata := md }]) rest
    else if active = 0 ∧ active + d > 0 then
      sweepSpec name md (active + d) (some time) acc rest
    else
      sweepSpec name md (active + d) startTime acc rest

/-- The profile of an edge map: its entries with edges folded to deltas. -/
def profileOf (em : EdgeMap) : List (ℕ × ℤ) :=
  em.map (fun p => (p.1, edgeDelta p.2))

theorem sweepGo_eq_sweepSpec (name : String) (md : Meta) :
    ∀ (em : EdgeMap) (active : ℤ) (startTime : Option ℕ) (acc : List Event),
      sweepGo name md active startTime acc em =
        sweepSpec name md active startTime acc (profileOf em) := by
  intro em
  induction em with
  | nil => intro active st acc; rfl
  | cons p rest ih =>
    rcases p with ⟨time, es⟩
    intro active st acc
    simp only [sweepGo, profileOf, List.map_cons, sweepSpec]
    by_cases h1 : active > 0 ∧ active + edgeDelta es = 0
    · rw [if_pos h1, if_pos h1]
      cases st with
      | none => rfl
      | some s => simpa [profileOf] using ih _ _ _
    · rw [if_neg h1, if_neg h1]
      by_cases h2 : active = 0 ∧ active + edgeDelta es > 0
      · rw [if_pos h2, if_pos h2]
        simpa [profileOf] using ih _ _ _
      · rw [if_neg h2, if_neg h2]
        simpa [profileOf] using ih _ _ _

/-- Zero-delta profile entries are no-ops for the sweep. -/
theorem sweepSpec_filter_zero (name : String) (md : Meta) :
    ∀ (l : List (ℕ × ℤ)) (active : ℤ) (startTime : Option ℕ)
      (acc : List Event),
      sweepSpec name md active startTime acc l =
        sweepSpec name md active startTime acc
          (l.filter (fun p => p.2 ≠ 0)) := by
  intro l
  induction l with
  | nil => intro active st acc; rfl
  | cons p rest ih =>
    rcases p with ⟨time, d⟩
    intro active st acc
    by_cases hd : d = 0
    · subst hd
      rw [List.filter_cons]
      simp only [sweepSpec, add_zero]
      have h1 : ¬(active > 0 ∧ active = 0) := by omega
      have h2 : ¬(active = 0 ∧ active > 0) := by omega
      rw [if_neg h1, if_neg h2]
      simpa using ih active st acc
    · rw [List.filter_cons, if_pos (by simpa using hd)]
      simp only [sweepSpec]
      by_cases h1 : active > 0 ∧ active + d = 0
      · rw [if_pos h1, if_pos h1]
        cases st with
        | none => rfl
        | some s => exact ih _ _ _
      · rw [if_neg h1, if_neg h1]
        by_cases h2 : active = 0 ∧ active + d > 0
        · rw [if_pos h2, if_pos h2]
          exact ih _ _ _
        · rw [if_neg h2, if_neg h2]
          exact ih _ _ _

/-- The shape of an event ignoring metadata. -/
def stripMeta (e : Event) : String × ℕ × Option ℕ := (e.name, e.start, e.duration)

/-- The sweep's emitted names, starts and durations do not depend on the
metadata it stamps, nor on the metadata of the accumulator. -/
theorem sweepSpec_stripMeta (name : String) :
    ∀ (l : List (ℕ × ℤ)) (md₁ md₂ : Meta) (active : ℤ)
      (startTime : Option ℕ) (acc₁ acc₂ : List Event),
      acc₁.map stripMeta = acc₂.map stripMeta →
      Except.map (List.map stripMeta)
          (sweepSpec name md₁ active startTime acc₁ l) =
        Except.map (List.map stripMeta)
          (sweepSpec name md₂ active startTime acc₂ l) := by
  intro l
  induction l with
  | nil =>
    intro md₁ md₂ active st acc₁ acc₂ hacc
    simp only [sweepSpec, Except.map, hacc]
  | cons p rest ih =>
    rcases p with ⟨time, d⟩
    intro md₁ md₂ active st acc₁ acc₂ hacc
    simp only [sweepSpec]
    by_cases h1 : active > 0 ∧ active + d = 0
    · rw [if_pos h1, if_pos h1]
      cases st with
      | none => rfl
      | some s =>
        exact ih _ _ _ _ _ _ (by simp [hacc, stripMeta])
    · rw [if_neg h1, if_neg h1]
      by_cases h2 : active = 0 ∧ active + d > 0
      · rw [if_pos h2, if_pos h2]
        exact ih _ _ _ _ _ _ hacc
      · rw [if_neg h2, if_neg h2]
        exact ih _ _ _ _ _ _ hacc

/-- Every event the sweep appends beyond the accumulator carries the
supplied name and the supplied metadata union. -/
theorem sweepSpec_stamp (name : String) (md : Meta) :
    ∀ (l : List (ℕ × ℤ)) (active : ℤ) (startTime : Option ℕ)
      (acc result : List Event),
      (∀ e ∈ acc, e.name = name ∧ e.metadata = md) →
      sweepSpec name md active startTime acc l = .ok result →
      ∀ e ∈ result, e.name = name ∧ e.metadata = md := by
  intro l
  induction l with
  | nil =>
    intro active st acc result hacc hok
    simp only [sweepSpec, Except.ok.injEq] at hok
    subst hok
    exact hacc
  | cons p rest ih =>
    rcases p with ⟨time, d⟩
    intro active st acc result hacc hok
    simp only [sweepSpec] at hok
    by_cases h1 : active > 0 ∧ active + d = 0
    · rw [if_pos h1] at hok
      cases st with
      | none => simp at hok
      | some s =>
        refine ih _ _ _ _ ?_ hok
        intro e he
        rcases List.mem_append.mp he with h | h
        · exact hacc e h
        · rcases List.mem_singleton.mp h with rfl
          exact ⟨rfl, rfl⟩
    · rw [if_neg h1] at hok
      by_cases h2 : active = 0 ∧ active + d > 0
      · rw [if_pos h2] at hok
        exact ih _ _ _ _ hacc hok
      · rw [if_neg h2] at hok
        exact ih _ _ _ _ hacc hok



/-- Net delta recorded at time t by an edge map (summing over all of its
entries with key t; for sorted maps there is at most one). -/
def EdgeMap.deltaAt (em : EdgeMap) (t : ℕ) : ℤ :=
  ((em.filter (fun p => p.1 = t)).map (fun p => edgeDelta p.2)).sum

theorem edgeDelta_append_one (es : List Edge) (e : Edge) :
    edgeDelta (es ++ [e]) = edgeDelta es + e.delta := by
  simp only [edgeDelta, List.foldl_append, List.foldl_cons, List.foldl_nil]
  cases e
  · simp [Edge.delta]
  · simp [Edge.delta]
    ring

theorem deltaAt_cons (t₀ : ℕ) (es : List Edge) (rest : EdgeMap) (t : ℕ) :
    EdgeMap.deltaAt ((t₀, es) :: rest) t =
      (if t₀ = t then edgeDelta es else 0) + rest.deltaAt t := by
  simp only [EdgeMap.deltaAt, List.filter_cons]
  by_cases h : t₀ = t <;> simp [h]

theorem push_deltaAt (t' : ℕ) (e : Edge) :
    ∀ (em : EdgeMap) (t : ℕ),
      (em.push t' e).deltaAt t =
        em.deltaAt t + if t = t' then e.delta else 0 := by
  intro em
  induction em with
  | nil =>
    intro t
    show EdgeMap.deltaAt [(t', [e])] t = EdgeMap.deltaAt [] t + _
    rw [deltaAt_cons]
    by_cases ht : t = t'
    · subst ht
      cases e <;> simp [EdgeMap.deltaAt, edgeDelta, Edge.delta]
    · have ht2 : ¬ t' = t := fun hh => ht hh.symm
      simp [EdgeMap.deltaAt, ht, ht2]
  | cons p rest ih =>
    rcases p with ⟨t₀, es⟩
    intro t
    simp only [EdgeMap.push]
    by_cases h1 : t' < t₀
    · rw [if_pos h1, deltaAt_cons, deltaAt_cons]
      have he : edgeDelta [e] = e.delta := by cases e <;> rfl
      by_cases ht : t = t'
      · subst ht
        simp [he]
        ring
      · have ht2 : ¬ t' = t := fun hh => ht hh.symm
        simp [ht, ht2]
    · rw [if_neg h1]
      by_cases h2 : t' = t₀
      · rw [if_pos h2]
        subst h2
        rw [deltaAt_cons, deltaAt_cons, edgeDelta_append_one]
        by_cases ht : t' = t
        · subst ht
          simp
          ring
        · have ht2 : ¬ t = t' := fun hh => ht hh.symm
          simp [ht, ht2]
      · rw [if_neg h2, deltaAt_cons, deltaAt_cons, ih t]
        ring

theorem push_keys_mem (t' : ℕ) (e : Edge) :
    ∀ (em : EdgeMap) (t : ℕ),
      (t ∈ (em.push t' e).map (·.1) ↔ t = t' ∨ t ∈ em.map (·.1)) := by
  intro em
  induction em with
  | nil => intro t; simp [EdgeMap.push]
  | cons p rest ih =>
    rcases p with ⟨t₀, es⟩
    intro t
    simp only [EdgeMap.push]
    by_cases h1 : t' < t₀
    · rw [if_pos h1]
      simp only [List.map_cons, List.mem_cons]
      try tauto
    · rw [if_neg h1]
      by_cases h2 : t' = t₀
      · rw [if_pos h2]
        subst h2
        simp only [List.map_cons, List.mem_cons]
        try tauto
      · rw [if_neg h2]
        simp only [List.map_cons, List.mem_cons, ih]
        try tauto

theorem push_keys_sorted (t' : ℕ) (e : Edge) :
    ∀ em : EdgeMap, (em.map (·.1)).Pairwise (· < ·) →
      ((em.push t' e).map (·.1)).Pairwise (· < ·) := by
  intro em
  induction em with
  | nil => intro _; simp [EdgeMap.push]
  | cons p rest ih =>
    rcases p with ⟨t₀, es⟩
    intro hs
    simp only [List.map_cons, List.pairwise_cons] at hs
    simp only [EdgeMap.push]
    by_cases h1 : t' < t₀
    · rw [if_pos h1]
      simp only [List.map_cons, List.pairwise_cons]
      refine ⟨?_, hs.1, hs.2⟩
      intro y hy
      rcases List.mem_cons.mp hy with rfl | hy'
      · exact h1
      · exact lt_trans h1 (hs.1 y hy')
    · rw [if_neg h1]
      by_cases h2 : t' = t₀
      · rw [if_pos h2]
        simp only [List.map_cons, List.pairwise_cons]
        exact hs
      · rw [if_neg h2]
        simp only [List.map_cons, List.pairwise_cons]
        constructor
        · intro y hy
          rcases (push_keys_mem t' e rest y).mp hy with rfl | hy'
          · omega
          · exact hs.1 y hy'
        · exact ih hs.2

theorem deltaAt_zero_of_not_mem :
    ∀ (em : EdgeMap) (t : ℕ), t ∉ em.map (·.1) → em.deltaAt t = 0 := by
  intro em
  induction em with
  | nil => intro t _; rfl
  | cons p rest ih =>
    rcases p with ⟨t₀, es⟩
    intro t h
    simp only [List.map_cons, List.mem_cons] at h
    push_neg at h
    rw [deltaAt_cons, ih t h.2]
    have ht2 : ¬ t₀ = t := fun hh => h.1 hh.symm
    simp [ht2]

/-- For an edge map with distinct keys, the profile is determined by the
key list and the per-key deltas. -/
theorem profile_eq_keys_deltas :
    ∀ em : EdgeMap, (em.map (·.1)).Pairwise (· < ·) →
      profileOf em = (em.map (·.1)).map (fun t => (t, em.deltaAt t)) := by
  intro em
  induction em with
  | nil => intro _; rfl
  | cons p rest ih =>
    rcases p with ⟨t₀, es⟩
    intro hs
    simp only [List.map_cons, List.pairwise_cons] at hs
    have hnot : t₀ ∉ rest.map (·.1) := by
      intro hmem
      exact absurd (hs.1 t₀ hmem) (lt_irrefl t₀)
    simp only [profileOf, List.map_cons]
    congr 1
    · have hd : EdgeMap.deltaAt ((t₀, es) :: rest) t₀ = edgeDelta es := by
        rw [deltaAt_cons, deltaAt_zero_of_not_mem rest t₀ hnot]
        simp
      rw [hd]
    · have hrest := ih hs.2
      simp only [profileOf] at hrest
      rw [hrest]
      apply List.map_congr_left
      intro t ht
      have htne : ¬ t₀ = t := by
        intro hh
        subst hh
        exact hnot ht
      rw [deltaAt_cons]
      simp [htne]

/-- Two strictly sorted key lists with the same members are equal. -/
theorem sorted_mem_eq :
    ∀ (k₁ k₂ : List ℕ), k₁.Pairwise (· < ·) → k₂.Pairwise (· < ·) →
      (∀ t, t ∈ k₁ ↔ t ∈ k₂) → k₁ = k₂ := by
  intro k₁
  induction k₁ with
  | nil =>
    intro k₂ _ _ hmem
    cases k₂ with
    | nil => rfl
    | cons b bs => exact absurd ((hmem b).mpr (List.mem_cons_self b bs)) (by simp)
  | cons a as ih =>
    intro k₂ h₁ h₂ hmem
    cases k₂ with
    | nil => exact absurd ((hmem a).mp (List.mem_cons_self a as)) (by simp)
    | cons b bs =>
      simp only [List.pairwise_cons] at h₁ h₂
      have hab : a = b := by
        rcases List.mem_cons.mp ((hmem a).mp (List.mem_cons_self a as)) with
          h | h
        · exact h
        · rcases List.mem_cons.mp ((hmem b).mpr (List.mem_cons_self b bs)) with
            h' | h'
          · exact h'.symm
          · have hba := h₁.1 b h'
            have hab' := h₂.1 a h
            omega
      subst hab
      have htail : ∀ t, t ∈ as ↔ t ∈ bs := by
        intro t
        constructor
        · intro ht
          rcases List.mem_cons.mp ((hmem t).mp (List.mem_cons_of_mem a ht))
            with rfl | h
          · exact absurd (h₁.1 t ht) (lt_irrefl t)
          · exact h
        · intro ht
          rcases List.mem_cons.mp ((hmem t).mpr (List.mem_cons_of_mem a ht))
            with rfl | h
          · exact absurd (h₂.1 t ht) (lt_irrefl t)
          · exact h
      rw [ih bs h₁.2 h₂.2 htail]



/-! ## Build-phase characterisation -/

/-- The edge-map accumulation of `generate_merged_events`, standalone. -/
def edgesOf (events : List Event) : EdgeMap :=
  events.foldl (fun em e => (em.push e.start .start).push e.endTime .stop) []

/-- The metadata accumulation of `generate_merged_events`, standalone. -/
def mdOf (events : List Event) : Meta :=
  events.foldl (fun md e => md.extend e.metadata) []

theorem buildEdges_eq (events : List Event) :
    buildEdges events = (edgesOf events, mdOf events) := by
  suffices h : ∀ (em0 : EdgeMap) (md0 : Meta),
      events.foldl (fun acc e =>
          (((acc.1.push e.start .start).push e.endTime .stop),
            acc.2.extend e.metadata)) (em0, md0) =
        (events.foldl (fun em e =>
            (em.push e.start .start).push e.endTime .stop) em0,
         events.foldl (fun md e => md.extend e.metadata) md0) by
    exact h [] []
  induction events with
  | nil => intro em0 md0; rfl
  | cons e rest ih => intro em0 md0; exact ih _ _

/-- Signed contribution of the event list to the delta at time t. -/
def eventsDelta (events : List Event) (t : ℕ) : ℤ :=
  (events.map (fun e =>
    (if t = e.start then (1 : ℤ) else 0) +
      (if t = e.endTime then (-1 : ℤ) else 0))).sum

theorem edgesOf_fold_deltaAt (events : List Event) :
    ∀ (em0 : EdgeMap) (t : ℕ),
      (events.foldl (fun em e =>
          (em.push e.start .start).push e.endTime .stop) em0).deltaAt t =
        em0.deltaAt t + eventsDelta events t := by
  induction events with
  | nil => intro em0 t; simp [eventsDelta]
  | cons e rest ih =>
    intro em0 t
    simp only [List.foldl_cons]
    rw [ih]
    rw [push_deltaAt, push_deltaAt]
    simp only [eventsDelta, List.map_cons, List.sum_cons, Edge.delta]
    ring

theorem edgesOf_fold_keys_mem (events : List Event) :
    ∀ (em0 : EdgeMap) (t : ℕ),
      (t ∈ (events.foldl (fun em e =>
          (em.push e.start .start).push e.endTime .stop) em0).map (·.1) ↔
        t ∈ em0.map (·.1) ∨ ∃ e ∈ events, t = e.start ∨ t = e.endTime) := by
  induction events with
  | nil => intro em0 t; simp
  | cons e rest ih =>
    intro em0 t
    simp only [List.foldl_cons]
    rw [ih, push_keys_mem, push_keys_mem]
    simp only [List.exists_mem_cons_iff]
    generalize (∃ x ∈ rest, t = x.start ∨ t = x.endTime) = P
    tauto

theorem edgesOf_fold_keys_sorted (events : List Event) :
    ∀ em0 : EdgeMap, (em0.map (·.1)).Pairwise (· < ·) →
      ((events.foldl (fun em e =>
          (em.push e.start .start).push e.endTime .stop) em0).map
        (·.1)).Pairwise (· < ·) := by
  induction events with
  | nil => intro em0 h; exact h
  | cons e rest ih =>
    intro em0 h
    simp only [List.foldl_cons]
    exact ih _ (push_keys_sorted _ _ _ (push_keys_sorted _ _ _ h))

theorem edgesOf_keys_sorted (events : List Event) :
    ((edgesOf events).map (·.1)).Pairwise (· < ·) :=
  edgesOf_fold_keys_sorted events [] (by simp)

theorem edgesOf_deltaAt (events : List Event) (t : ℕ) :
    (edgesOf events).deltaAt t = eventsDelta events t := by
  have h := edgesOf_fold_deltaAt events [] t
  simpa [EdgeMap.deltaAt] using h

theorem edgesOf_keys_mem (events : List Event) (t : ℕ) :
    t ∈ (edgesOf events).map (·.1) ↔
      ∃ e ∈ events, t = e.start ∨ t = e.endTime := by
  have h := edgesOf_fold_keys_mem events [] t
  simpa using h

theorem eventsDelta_perm {l₁ l₂ : List Event} (h : l₁.Perm l₂) (t : ℕ) :
    eventsDelta l₁ t = eventsDelta l₂ t :=
  List.Perm.sum_eq (h.map _)

/-- The profile of the built edge map is invariant under permutation of
the input events. -/
theorem profileOf_edgesOf_perm {l₁ l₂ : List Event} (h : l₁.Perm l₂) :
    profileOf (edgesOf l₁) = profileOf (edgesOf l₂) := by
  have hkeys : (edgesOf l₁).map (·.1) = (edgesOf l₂).map (·.1) := by
    apply sorted_mem_eq _ _ (edgesOf_keys_sorted l₁) (edgesOf_keys_sorted l₂)
    intro t
    rw [edgesOf_keys_mem, edgesOf_keys_mem]
    constructor
    · rintro ⟨e, he, hp⟩
      exact ⟨e, h.mem_iff.mp he, hp⟩
    · rintro ⟨e, he, hp⟩
      exact ⟨e, h.mem_iff.mpr he, hp⟩
  rw [profile_eq_keys_deltas _ (edgesOf_keys_sorted l₁),
    profile_eq_keys_deltas _ (edgesOf_keys_sorted l₂), hkeys]
  apply List.map_congr_left
  intro t _
  rw [edgesOf_deltaAt, edgesOf_deltaAt, eventsDelta_perm h]



/-! ## Order facts for the string comparison of the BTreeMap model -/

theorem charListLt_irrefl : ∀ l : List Char, charListLt l l = false := by
  intro l
  induction l with
  | nil => rfl
  | cons a as ih => simp [charListLt, ih]

theorem charListLt_asymm : ∀ a b : List Char,
    charListLt a b = true → charListLt b a = false := by
  intro a
  induction a with
  | nil =>
    intro b h
    cases b with
    | nil => simp [charListLt] at h
    | cons y ys => rfl
  | cons x xs ih =>
    intro b h
    cases b with
    | nil => simp [charListLt] at h
    | cons y ys =>
      simp only [charListLt] at h ⊢
      by_cases h1 : x.val.toNat < y.val.toNat
      · have h2 : ¬ y.val.toNat < x.val.toNat := by omega
        simp [h1, h2]
      · rw [if_neg h1] at h
        by_cases h2 : y.val.toNat < x.val.toNat
        · rw [if_pos h2] at h
          cases h
        · rw [if_neg h2] at h
          simp [h1, h2]
          exact ih ys h

theorem charListLt_eq_of_not : ∀ a b : List Char,
    charListLt a b = false → charListLt b a = false → a = b := by
  intro a
  induction a with
  | nil =>
    intro b h1 _
    cases b with
    | nil => rfl
    | cons y ys => simp [charListLt] at h1
  | cons x xs ih =>
    intro b h1 h2
    cases b with
    | nil => simp [charListLt] at h2
    | cons y ys =>
      simp only [charListLt] at h1 h2
      by_cases hxy : x.val.toNat < y.val.toNat
      · rw [if_pos hxy] at h1
        cases h1
      · rw [if_neg hxy] at h1
        by_cases hyx : y.val.toNat < x.val.toNat
        · rw [if_pos hyx] at h2
          cases h2
        · rw [if_neg hyx] at h1
          have hx : x = y := Char.ext (UInt32.ext (by omega))
          rw [if_neg hyx, if_neg hxy] at h2
          rw [hx, ih ys h1 h2]

theorem charListLt_trans : ∀ a b c : List Char,
    charListLt a b = true → charListLt b c = true →
      charListLt a c = true := by
  intro a
  induction a with
  | nil =>
    intro b c h1 h2
    cases b with
    | nil => simp [charListLt] at h1
    | cons y ys =>
      cases c with
      | nil => simp [charListLt] at h2
      | cons z zs => rfl
  | cons x xs ih =>
    intro b c h1 h2
    cases b with
    | nil => simp [charListLt] at h1
    | cons y ys =>
      cases c with
      | nil => simp [charListLt] at h2
      | cons z zs =>
        simp only [charListLt] at h1 h2 ⊢
        by_cases hxy : x.val.toNat < y.val.toNat
        · by_cases hyz : y.val.toNat < z.val.toNat
          · rw [if_pos (by omega : x.val.toNat < z.val.toNat)]
          · rw [if_neg hyz] at h2
            by_cases hzy : z.val.toNat < y.val.toNat
            · rw [if_pos hzy] at h2
              cases h2
            · rw [if_pos (by omega : x.val.toNat < z.val.toNat)]
        · rw [if_neg hxy] at h1
          by_cases hyx : y.val.toNat < x.val.toNat
          · rw [if_pos hyx] at h1
            cases h1
          · rw [if_neg hyx] at h1
            by_cases hyz : y.val.toNat < z.val.toNat
            · rw [if_pos (by omega : x.val.toNat < z.val.toNat)]
            · rw [if_neg hyz] at h2
              by_cases hzy : z.val.toNat < y.val.toNat
              · rw [if_pos hzy] at h2
                cases h2
              · rw [if_neg hzy] at h2
                rw [if_neg (by omega : ¬ x.val.toNat < z.val.toNat),
                  if_neg (by omega : ¬ z.val.toNat < x.val.toNat)]
                exact ih ys zs h1 h2

theorem strLt_irrefl (a : String) : strLt a a = false := charListLt_irrefl _

theorem strLt_asymm {a b : String} (h : strLt a b = true) :
    strLt b a = false := charListLt_asymm _ _ h

theorem strLt_trans {a b c : String} (h1 : strLt a b = true)
    (h2 : strLt b c = true) : strLt a c = true :=
  charListLt_trans _ _ _ h1 h2

theorem strLt_cases (a b : String) :
    strLt a b = true ∨ a = b ∨ strLt b a = true := by
  rcases h1 : strLt a b with _ | _
  · rcases h2 : strLt b a with _ | _
    · exact Or.inr (Or.inl (String.ext (charListLt_eq_of_not _ _ h1 h2)))
    · exact Or.inr (Or.inr rfl)
  · exact Or.inl rfl

theorem strLt_ne {a b : String} (h : strLt a b = true) : ¬ a = b := by
  intro he
  subst he
  rw [strLt_irrefl] at h
  cases h

theorem strLt_ne' {a b : String} (h : strLt a b = true) : ¬ b = a :=
  fun he => strLt_ne h he.symm

/-- Insertions of pairs with distinct keys commute (on any map). -/
theorem insertKV_comm (k₁ k₂ : String) (v₁ v₂ : DebugAnnotation)
    (hne : ¬ k₁ = k₂) :
    ∀ m : Meta, (m.insertKV k₁ v₁).insertKV k₂ v₂ =
      (m.insertKV k₂ v₂).insertKV k₁ v₁ := by
  have hsym : ¬ k₂ = k₁ := fun h => hne h.symm
  intro m
  induction m with
  | nil =>
    rcases strLt_cases k₁ k₂ with h | h | h
    · simp [Meta.insertKV, h, strLt_asymm h, hne, hsym]
    · exact absurd h hne
    · simp [Meta.insertKV, h, strLt_asymm h, hne, hsym]
  | cons p rest ih =>
    rcases p with ⟨k₀, v₀⟩
    rcases strLt_cases k₁ k₀ with h₁ | rfl | h₁
    · rcases strLt_cases k₂ k₀ with h₂ | rfl | h₂
      · rcases strLt_cases k₁ k₂ with h₃ | h₃ | h₃
        · simp [Meta.insertKV, h₁, h₂, h₃, strLt_asymm h₃, hne, hsym]
        · exact absurd h₃ hne
        · simp [Meta.insertKV, h₁, h₂, h₃, strLt_asymm h₃, hne, hsym]
      · simp [Meta.insertKV, h₁, strLt_asymm h₁, strLt_irrefl, hne, hsym]
      · have hk₂k₁ : strLt k₂ k₁ = false := strLt_asymm (strLt_trans h₁ h₂)
        have hk₂k₀ : strLt k₂ k₀ = false := strLt_asymm h₂
        simp [Meta.insertKV, h₁, hk₂k₁, hk₂k₀, strLt_ne' h₂, hne, hsym]
    · rcases strLt_cases k₂ k₁ with h₂ | h₂ | h₂
      · simp [Meta.insertKV, h₂, strLt_asymm h₂, strLt_irrefl, hne, hsym]
      · exact absurd h₂.symm hne
      · simp [Meta.insertKV, h₂, strLt_asymm h₂, strLt_irrefl, hne, hsym]
    · rcases strLt_cases k₂ k₀ with h₂ | rfl | h₂
      · have hk₁k₂ : strLt k₁ k₂ = false := strLt_asymm (strLt_trans h₂ h₁)
        have hk₁k₀ : strLt k₁ k₀ = false := strLt_asymm h₁
        simp [Meta.insertKV, h₂, hk₁k₂, hk₁k₀, strLt_ne' h₁, hne, hsym]
      · simp [Meta.insertKV, h₁, strLt_asymm h₁, strLt_irrefl, strLt_ne' h₁,
          hne, hsym]
      · have hk₁k₀ : strLt k₁ k₀ = false := strLt_asymm h₁
        have hk₂k₀ : strLt k₂ k₀ = false := strLt_asymm h₂
        simp [Meta.insertKV, hk₁k₀, hk₂k₀, strLt_ne' h₁, strLt_ne' h₂]
        exact ih



/-- All metadata pairs of an event list, in order. -/
def pairsOf (events : List Event) : List (String × DebugAnnotation) :=
  (events.map (·.metadata)).flatten

theorem mdOf_eq_pairs_fold :
    ∀ (events : List Event) (md0 : Meta),
      events.foldl (fun md e => md.extend e.metadata) md0 =
        (pairsOf events).foldl (fun acc p => acc.insertKV p.1 p.2) md0 := by
  intro events
  induction events with
  | nil => intro md0; rfl
  | cons e rest ih =>
    intro md0
    simp only [List.foldl_cons, pairsOf, List.map_cons, List.flatten_cons,
      List.foldl_append]
    rw [ih]
    rfl

/-- Under pairwise value-agreement of equal keys, the accumulated metadata
union is permutation-invariant. -/
theorem mdOf_perm {l₁ l₂ : List Event} (h : l₁.Perm l₂)
    (hcompat : ∀ p ∈ pairsOf l₁, ∀ q ∈ pairsOf l₁, p.1 = q.1 → p.2 = q.2) :
    mdOf l₁ = mdOf l₂ := by
  have hpairs : (pairsOf l₁).Perm (pairsOf l₂) := (h.map _).flatten
  rw [mdOf, mdOf, mdOf_eq_pairs_fold, mdOf_eq_pairs_fold]
  apply List.Perm.foldl_eq' hpairs
  intro p hp q hq z
  by_cases hk : p.1 = q.1
  · have hv : p.2 = q.2 := hcompat p hp q hq hk
    have : p = q := Prod.ext hk hv
    rw [this]
  · exact insertKV_comm p.1 q.1 p.2 q.2 hk z

/-- Membership in the key list after one insertion. -/
theorem insertKV_keys_mem (k : String) (v : DebugAnnotation) (x : String) :
    ∀ m : Meta,
      (x ∈ (Meta.insertKV m k v).map Prod.fst ↔
        x = k ∨ x ∈ m.map Prod.fst) := by
  intro m
  induction m with
  | nil => simp [Meta.insertKV]
  | cons p rest ih =>
    rcases p with ⟨k₀, v₀⟩
    by_cases h1 : strLt k k₀ = true
    · have he : Meta.insertKV ((k₀, v₀) :: rest) k v =
          (k, v) :: (k₀, v₀) :: rest := by
        simp [Meta.insertKV, h1]
      rw [he]
      simp only [List.map_cons, List.mem_cons]
    · by_cases h2 : k = k₀
      · subst h2
        have he : Meta.insertKV ((k, v₀) :: rest) k v = (k, v) :: rest := by
          simp [Meta.insertKV, h1]
        rw [he]
        simp only [List.map_cons, List.mem_cons]
        tauto
      · have he : Meta.insertKV ((k₀, v₀) :: rest) k v =
            (k₀, v₀) :: Meta.insertKV rest k v := by
          simp [Meta.insertKV, h1, h2]
        rw [he]
        simp only [List.map_cons, List.mem_cons, ih]
        tauto

/-- One insertion keeps the key list strictly sorted. -/
theorem insertKV_keys_sorted (k : String) (v : DebugAnnotation) :
    ∀ m : Meta,
      (m.map Prod.fst).Pairwise (fun a b => strLt a b = true) →
      ((Meta.insertKV m k v).map Prod.fst).Pairwise
        (fun a b => strLt a b = true) := by
  intro m
  induction m with
  | nil => intro _; simp [Meta.insertKV]
  | cons p rest ih =>
    rcases p with ⟨k₀, v₀⟩
    intro hs
    simp only [List.map_cons, List.pairwise_cons] at hs
    by_cases h1 : strLt k k₀ = true
    · have he : Meta.insertKV ((k₀, v₀) :: rest) k v =
          (k, v) :: (k₀, v₀) :: rest := by
        simp [Meta.insertKV, h1]
      rw [he]
      simp only [List.map_cons, List.pairwise_cons]
      refine ⟨?_, ?_, hs.2⟩
      · intro b hb
        rcases List.mem_cons.mp hb with rfl | hb
        · exact h1
        · exact strLt_trans h1 (hs.1 b hb)
      · exact hs.1
    · by_cases h2 : k = k₀
      · subst h2
        have he : Meta.insertKV ((k, v₀) :: rest) k v = (k, v) :: rest := by
          simp [Meta.insertKV, h1]
        rw [he]
        simp only [List.map_cons, List.pairwise_cons]
        exact hs
      · have h3 : strLt k₀ k = true := by
          rcases strLt_cases k k₀ with h | h | h
          · exact absurd h h1
          · exact absurd h h2
          · exact h
        have he : Meta.insertKV ((k₀, v₀) :: rest) k v =
            (k₀, v₀) :: Meta.insertKV rest k v := by
          simp [Meta.insertKV, h1, h2]
        rw [he]
        simp only [List.map_cons, List.pairwise_cons]
        refine ⟨?_, ih hs.2⟩
        intro b hb
        rcases (insertKV_keys_mem k v b rest).mp hb with rfl | hb
        · exact h3
        · exact hs.1 b hb

/-- Membership in the key list of a fold of insertions. -/
theorem fold_insertKV_keys_mem (x : String) :
    ∀ (ps : List (String × DebugAnnotation)) (m : Meta),
      (x ∈ (ps.foldl (fun acc p => acc.insertKV p.1 p.2) m).map Prod.fst ↔
        x ∈ ps.map Prod.fst ∨ x ∈ m.map Prod.fst) := by
  intro ps
  induction ps with
  | nil => intro m; simp
  | cons p rest ih =>
    intro m
    simp only [List.foldl_cons, List.map_cons, List.mem_cons]
    rw [ih, insertKV_keys_mem]
    tauto

/-- A fold of insertions keeps the key list strictly sorted. -/
theorem fold_insertKV_keys_sorted :
    ∀ (ps : List (String × DebugAnnotation)) (m : Meta),
      (m.map Prod.fst).Pairwise (fun a b => strLt a b = true) →
      ((ps.foldl (fun acc p => acc.insertKV p.1 p.2) m).map
          Prod.fst).Pairwise (fun a b => strLt a b = true) := by
  intro ps
  induction ps with
  | nil => intro m h; exact h
  | cons p rest ih =>
    intro m h
    exact ih _ (insertKV_keys_sorted p.1 p.2 m h)

/-- Two strictly strLt-sorted string lists with the same members are
equal. -/
theorem strLt_sorted_mem_eq :
    ∀ (k₁ k₂ : List String),
      k₁.Pairwise (fun a b => strLt a b = true) →
      k₂.Pairwise (fun a b => strLt a b = true) →
      (∀ t, t ∈ k₁ ↔ t ∈ k₂) → k₁ = k₂ := by
  intro k₁
  induction k₁ with
  | nil =>
    intro k₂ _ _ hmem
    cases k₂ with
    | nil => rfl
    | cons b bs =>
      exact absurd ((hmem b).mpr (List.mem_cons_self b bs)) (by simp)
  | cons a as ih =>
    intro k₂ h₁ h₂ hmem
    cases k₂ with
    | nil => exact absurd ((hmem a).mp (List.mem_cons_self a as)) (by simp)
    | cons b bs =>
      simp only [List.pairwise_cons] at h₁ h₂
      have hab : a = b := by
        rcases List.mem_cons.mp ((hmem a).mp (List.mem_cons_self a as)) with
          h | h
        · exact h
        · rcases List.mem_cons.mp ((hmem b).mpr (List.mem_cons_self b bs))
            with h' | h'
          · exact h'.symm
          · have h₃ := h₁.1 b h'
            have h₄ := h₂.1 a h
            rw [strLt_asymm h₄] at h₃
            cases h₃
      subst hab
      have htail : ∀ t, t ∈ as ↔ t ∈ bs := by
        intro t
        constructor
        · intro ht
          rcases List.mem_cons.mp ((hmem t).mp (List.mem_cons_of_mem a ht))
            with rfl | h
          · have h₅ := h₁.1 t ht
            rw [strLt_irrefl] at h₅
            cases h₅
          · exact h
        · intro ht
          rcases List.mem_cons.mp ((hmem t).mpr (List.mem_cons_of_mem a ht))
            with rfl | h
          · have h₅ := h₂.1 t ht
            rw [strLt_irrefl] at h₅
            cases h₅
          · exact h
      rw [ih bs h₁.2 h₂.2 htail]

/-- The KEYS of the accumulated metadata union are permutation-invariant,
with no value-agreement assumption. -/
theorem mdOf_keys_perm {l₁ l₂ : List Event} (h : l₁.Perm l₂) :
    (mdOf l₁).map Prod.fst = (mdOf l₂).map Prod.fst := by
  have hpairs : (pairsOf l₁).Perm (pairsOf l₂) := (h.map _).flatten
  apply strLt_sorted_mem_eq
  · rw [mdOf, mdOf_eq_pairs_fold]
    exact fold_insertKV_keys_sorted (pairsOf l₁) [] (by simp)
  · rw [mdOf, mdOf_eq_pairs_fold]
    exact fold_insertKV_keys_sorted (pairsOf l₂) [] (by simp)
  · intro t
    rw [mdOf, mdOf, mdOf_eq_pairs_fold, mdOf_eq_pairs_fold,
      fold_insertKV_keys_mem, fold_insertKV_keys_mem]
    simp [(hpairs.map Prod.fst).mem_iff]

/-- The emitted metadata key lists depend only on the keys of the stamped
metadata union, not on its values. -/
theorem sweepSpec_keys (name : String) :
    ∀ (l : List (ℕ × ℤ)) (md₁ md₂ : Meta),
      md₁.map Prod.fst = md₂.map Prod.fst →
      ∀ (active : ℤ) (startTime : Option ℕ) (acc₁ acc₂ : List Event),
      acc₁.map (fun e => e.metadata.map Prod.fst) =
        acc₂.map (fun e => e.metadata.map Prod.fst) →
      Except.map (List.map (fun e => e.metadata.map Prod.fst))
          (sweepSpec name md₁ active startTime acc₁ l) =
        Except.map (List.map (fun e => e.metadata.map Prod.fst))
          (sweepSpec name md₂ active startTime acc₂ l) := by
  intro l
  induction l with
  | nil =>
    intro md₁ md₂ hmd active st acc₁ acc₂ hacc
    simp only [sweepSpec, Except.map, hacc]
  | cons p rest ih =>
    rcases p with ⟨time, d⟩
    intro md₁ md₂ hmd active st acc₁ acc₂ hacc
    simp only [sweepSpec]
    by_cases h1 : active > 0 ∧ active + d = 0
    · rw [if_pos h1, if_pos h1]
      cases st with
      | none => rfl
      | some s =>
        exact ih _ _ hmd _ _ _ _ (by simp [hacc, hmd])
    · rw [if_neg h1, if_neg h1]
      by_cases h2 : active = 0 ∧ active + d > 0
      · rw [if_pos h2, if_pos h2]
        exact ih _ _ hmd _ _ _ _ hacc
      · rw [if_neg h2, if_neg h2]
        exact ih _ _ hmd _ _ _ _ hacc

/-- Nonzero delta at a time implies an event endpoint at that time. -/
theorem eventsDelta_ne_zero_mem (evs : List Event) (t : ℕ)
    (h : eventsDelta evs t ≠ 0) :
    ∃ e ∈ evs, t = e.start ∨ t = e.endTime := by
  by_contra hno
  push_neg at hno
  apply h
  apply List.sum_eq_zero
  intro x hx
  rcases List.mem_map.mp hx with ⟨e, he, rfl⟩
  have hne := hno e he
  simp [hne.1, hne.2]

theorem filter_snd_map (keys : List ℕ) (δ : ℕ → ℤ) :
    (keys.map (fun t => (t, δ t))).filter (fun p => p.2 ≠ 0) =
      (keys.filter (fun t => δ t ≠ 0)).map (fun t => (t, δ t)) := by
  induction keys with
  | nil => rfl
  | cons t ts ih =>
    simp only [List.map_cons, List.filter_cons]
    by_cases h : δ t = 0
    · simp [h]
      simpa using ih
    · simp [h]
      simpa using ih

/-- The nonzero part of the profile is determined by the per-time deltas
alone. -/
theorem filtered_profile_eq (l₁ l₂ : List Event)
    (hδ : ∀ t, eventsDelta l₁ t = eventsDelta l₂ t) :
    (profileOf (edgesOf l₁)).filter (fun p => p.2 ≠ 0) =
      (profileOf (edgesOf l₂)).filter (fun p => p.2 ≠ 0) := by
  have hkeys : ((edgesOf l₁).map (·.1)).filter
      (fun t => eventsDelta l₁ t ≠ 0) =
        ((edgesOf l₂).map (·.1)).filter (fun t => eventsDelta l₂ t ≠ 0) := by
    apply sorted_mem_eq
    · exact (edgesOf_keys_sorted l₁).filter _
    · exact (edgesOf_keys_sorted l₂).filter _
    · intro t
      rw [List.mem_filter, List.mem_filter]
      constructor
      · rintro ⟨_, hd⟩
        have hd' : eventsDelta l₁ t ≠ 0 := by simpa using hd
        rw [hδ t] at hd'
        refine ⟨?_, by simpa using hd'⟩
        rw [edgesOf_keys_mem]
        exact eventsDelta_ne_zero_mem l₂ t hd'
      · rintro ⟨_, hd⟩
        have hd' : eventsDelta l₂ t ≠ 0 := by simpa using hd
        rw [← hδ t] at hd'
        refine ⟨?_, by simpa using hd'⟩
        rw [edgesOf_keys_mem]
        exact eventsDelta_ne_zero_mem l₁ t hd'
  rw [profile_eq_keys_deltas _ (edgesOf_keys_sorted l₁),
    profile_eq_keys_deltas _ (edgesOf_keys_sorted l₂),
    filter_snd_map, filter_snd_map]
  simp only [edgesOf_deltaAt]
  rw [hkeys]
  apply List.map_congr_left
  intro t _
  rw [hδ t]

/-- The merge engine as a sweep over the built edge map. -/
theorem generate_eq_sweep (events : List Event) (name : String) :
    Event.generateMergedEvents events name =
      sweepGo name (mdOf events) 0 none [] (edgesOf events) := by
  simp only [Event.generateMergedEvents, buildEdges_eq]

/-- Names, starts and durations of the merge output depend only on the
per-time deltas of the input. -/
theorem generate_strip_eq_of_delta (l₁ l₂ : List Event) (name : String)
    (hδ : ∀ t, eventsDelta l₁ t = eventsDelta l₂ t) :
    Except.map (List.map stripMeta) (Event.generateMergedEvents l₁ name) =
      Except.map (List.map stripMeta) (Event.generateMergedEvents l₂ name) := by
  have h₁ := sweepSpec_filter_zero name (mdOf l₁) (profileOf (edgesOf l₁))
    0 none []
  have h₂ := sweepSpec_filter_zero name (mdOf l₂) (profileOf (edgesOf l₂))
    0 none []
  rw [generate_eq_sweep, generate_eq_sweep, sweepGo_eq_sweepSpec,
    sweepGo_eq_sweepSpec, h₁, h₂, filtered_profile_eq l₁ l₂ hδ]
  exact sweepSpec_stripMeta name _ (mdOf l₁) (mdOf l₂) 0 none [] [] rfl



/-! ## Claim C5 -/

/-- Claim C5 counterexample: with two separated spans (metadata {a} and
{b}) and an instantaneous event (metadata {i}), both merged Events carry
the union {a, b, i} of all three metadata maps, not the per-span
metadata: the first span's output metadata is not {a}. -/
theorem c5_counterexample :
    Event.generateMergedEvents
        [⟨"", 5, none, [("i", ⟨none, none⟩)]⟩,
         ⟨"", 0, some 1, [("a", ⟨none, none⟩)]⟩,
         ⟨"", 2, some 1, [("b", ⟨none, none⟩)]⟩] "m" =
      .ok [⟨"m", 0, some 1,
            [("a", ⟨none, none⟩), ("b", ⟨none, none⟩), ("i", ⟨none, none⟩)]⟩,
           ⟨"m", 2, some 1,
            [("a", ⟨none, none⟩), ("b", ⟨none, none⟩), ("i", ⟨none, none⟩)]⟩]
    ∧ ([("a", (⟨none, none⟩ : DebugAnnotation)), ("b", ⟨none, none⟩),
        ("i", ⟨none, none⟩)] : Meta) ≠ [("a", ⟨none, none⟩)] := by
  decide

/-- Claim C5 (amended): every merged Event emitted by
generate_merged_events carries the same metadata: the BTreeMap-extend
union of the metadata of ALL input Events — including instantaneous
Events and Events that contribute to other merged spans — with the value
of a key contributed several times taken from the last contributing
input event.  (Its name is always the supplied merged name.) -/
theorem merged_metadata_union (events : List Event) (name : String)
    (result : List Event)
    (h : Event.generateMergedEvents events name = .ok result) :
    ∀ ev ∈ result, ev.name = name ∧ ev.metadata = mdOf events := by
  rw [generate_eq_sweep, sweepGo_eq_sweepSpec] at h
  exact sweepSpec_stamp name (mdOf events) _ 0 none [] result
    (by intro e he; cases he) h

/-- Witness for the amended C5 theorem at the counterexample input,
instantiated at the first output Event. -/
theorem merged_metadata_union_witness :
    (⟨"m", 0, some 1,
        [("a", ⟨none, none⟩), ("b", ⟨none, none⟩), ("i", ⟨none, none⟩)]⟩ :
        Event).name = "m" ∧
      (⟨"m", 0, some 1,
        [("a", ⟨none, none⟩), ("b", ⟨none, none⟩), ("i", ⟨none, none⟩)]⟩ :
        Event).metadata = mdOf
          [⟨"", 5, none, [("i", ⟨none, none⟩)]⟩,
           ⟨"", 0, some 1, [("a", ⟨none, none⟩)]⟩,
           ⟨"", 2, some 1, [("b", ⟨none, none⟩)]⟩] :=
  merged_metadata_union
    [⟨"", 5, none, [("i", ⟨none, none⟩)]⟩,
     ⟨"", 0, some 1, [("a", ⟨none, none⟩)]⟩,
     ⟨"", 2, some 1, [("b", ⟨none, none⟩)]⟩] "m"
    [⟨"m", 0, some 1,
      [("a", ⟨none, none⟩), ("b", ⟨none, none⟩), ("i", ⟨none, none⟩)]⟩,
     ⟨"m", 2, some 1,
      [("a", ⟨none, none⟩), ("b", ⟨none, none⟩), ("i", ⟨none, none⟩)]⟩]
    (by decide) _ (by decide)

/-! ## Claim C6 -/

/-- Claim C6 counterexample: two overlapping spans both carrying the
metadata key "k" with different values; swapping the input order changes
which value survives in the merged Event's metadata, so the output is not
invariant under permutation of the input. -/
theorem c6_counterexample :
    ([⟨"", 0, some 2, [("k", ⟨none, some "A"⟩)]⟩,
      ⟨"", 1, some 2, [("k", ⟨none, some "B"⟩)]⟩] : List Event).Perm
        [⟨"", 1, some 2, [("k", ⟨none, some "B"⟩)]⟩,
         ⟨"", 0, some 2, [("k", ⟨none, some "A"⟩)]⟩]
    ∧ Event.generateMergedEvents
        [⟨"", 0, some 2, [("k", ⟨none, some "A"⟩)]⟩,
         ⟨"", 1, some 2, [("k", ⟨none, some "B"⟩)]⟩] "m" =
      .ok [⟨"m", 0, some 3, [("k", ⟨none, some "B"⟩)]⟩]
    ∧ Event.generateMergedEvents
        [⟨"", 1, some 2, [("k", ⟨none, some "B"⟩)]⟩,
         ⟨"", 0, some 2, [("k", ⟨none, some "A"⟩)]⟩] "m" =
      .ok [⟨"m", 0, some 3, [("k", ⟨none, some "A"⟩)]⟩]
    ∧ ([("k", (⟨none, some "B"⟩ : DebugAnnotation))] : Meta) ≠
        [("k", ⟨none, some "A"⟩)] := by
  refine ⟨List.Perm.swap _ _ _, by decide, by decide, by decide⟩

/-- Claim C6 (amended): for any permutation of a fixed set of same-group
Events, generate_merged_events returns merged Events with the same names,
starts and durations, and the same metadata key lists; the metadata
values also agree — so the entire output is equal — provided no two input
metadata pairs assign different values to the same key.  Without that
proviso, the value kept for a key contributed twice depends on the input
order. -/
theorem merged_events_perm_invariant (l₁ l₂ : List Event) (name : String)
    (h : l₁.Perm l₂) :
    (Except.map (List.map stripMeta) (Event.generateMergedEvents l₁ name) =
      Except.map (List.map stripMeta) (Event.generateMergedEvents l₂ name))
    ∧ (Except.map (List.map (fun e => e.metadata.map Prod.fst))
          (Event.generateMergedEvents l₁ name) =
        Except.map (List.map (fun e => e.metadata.map Prod.fst))
          (Event.generateMergedEvents l₂ name))
    ∧ ((∀ p ∈ pairsOf l₁, ∀ q ∈ pairsOf l₁, p.1 = q.1 → p.2 = q.2) →
        Event.generateMergedEvents l₁ name =
          Event.generateMergedEvents l₂ name) := by
  have hprof := profileOf_edgesOf_perm h
  refine ⟨?_, ?_, ?_⟩
  · exact generate_strip_eq_of_delta l₁ l₂ name (eventsDelta_perm h)
  · rw [generate_eq_sweep, generate_eq_sweep, sweepGo_eq_sweepSpec,
      sweepGo_eq_sweepSpec, hprof]
    exact sweepSpec_keys name _ (mdOf l₁) (mdOf l₂) (mdOf_keys_perm h)
      0 none [] [] rfl
  · intro hcompat
    rw [generate_eq_sweep, generate_eq_sweep, sweepGo_eq_sweepSpec,
      sweepGo_eq_sweepSpec, hprof, mdOf_perm h hcompat]

/-- Witness for the amended C6 theorem: a two-event swap with agreeing
metadata, where the outputs coincide exactly, and a second swap where the
same key carries two different values, where the key lists still
coincide. -/
theorem merged_events_perm_invariant_witness :
    (Except.map (List.map stripMeta)
        (Event.generateMergedEvents
          [⟨"x", 0, some 2, [("k", ⟨none, some "A"⟩)]⟩,
           ⟨"y", 1, some 2, [("n", ⟨none, none⟩)]⟩] "m") =
      Except.map (List.map stripMeta)
        (Event.generateMergedEvents
          [⟨"y", 1, some 2, [("n", ⟨none, none⟩)]⟩,
           ⟨"x", 0, some 2, [("k", ⟨none, some "A"⟩)]⟩] "m"))
    ∧ (Except.map (List.map (fun e => e.metadata.map Prod.fst))
        (Event.generateMergedEvents
          [⟨"", 0, some 2, [("k", ⟨none, some "A"⟩)]⟩,
           ⟨"", 1, some 2, [("k", ⟨none, some "B"⟩)]⟩] "m") =
      Except.map (List.map (fun e => e.metadata.map Prod.fst))
        (Event.generateMergedEvents
          [⟨"", 1, some 2, [("k", ⟨none, some "B"⟩)]⟩,
           ⟨"", 0, some 2, [("k", ⟨none, some "A"⟩)]⟩] "m"))
    ∧ (Event.generateMergedEvents
        [⟨"x", 0, some 2, [("k", ⟨none, some "A"⟩)]⟩,
         ⟨"y", 1, some 2, [("n", ⟨none, none⟩)]⟩] "m" =
      Event.generateMergedEvents
        [⟨"y", 1, some 2, [("n", ⟨none, none⟩)]⟩,
         ⟨"x", 0, some 2, [("k", ⟨none, some "A"⟩)]⟩] "m") := by
  have h := merged_events_perm_invariant
    [⟨"x", 0, some 2, [("k", ⟨none, some "A"⟩)]⟩,
     ⟨"y", 1, some 2, [("n", ⟨none, none⟩)]⟩]
    [⟨"y", 1, some 2, [("n", ⟨none, none⟩)]⟩,
     ⟨"x", 0, some 2, [("k", ⟨none, some "A"⟩)]⟩] "m"
    (List.Perm.swap _ _ _)
  have h2 := merged_events_perm_invariant
    [⟨"", 0, some 2, [("k", ⟨none, some "A"⟩)]⟩,
     ⟨"", 1, some 2, [("k", ⟨none, some "B"⟩)]⟩]
    [⟨"", 1, some 2, [("k", ⟨none, some "B"⟩)]⟩,
     ⟨"", 0, some 2, [("k", ⟨none, some "A"⟩)]⟩] "m"
    (List.Perm.swap _ _ _)
  exact ⟨h.1, h2.2.1, h.2.2 (by decide)⟩



/-! ## Claim C4 -/

/-- Claim C4: the merge engine emits one merged Event per maximal union
of overlapping or touching spans.  Conjuncts: (1) the concrete four-event
example (instantaneous at 1s; [2s,4s); [3s,5s); [5s,7s)) yields exactly
one Event with start 2s, duration 5s and metadata {bar, baz, foo};
(2) touching spans [a, a+d₁) and [a+d₁, a+d₁+d₂) merge into the single
span [a, a+d₁+d₂); (3) properly overlapping spans [a, a+d₁) and
[b, b+d₂) with a < b < a+d₁ < b+d₂ merge into the single span [a, b+d₂);
(4) spans separated by a positive gap produce two separate merged Events;
(5) an instantaneous Event contributes no interval: prepending it changes
no name, start or duration of the output. -/
theorem merge_intervals_behaviour :
    (Event.generateMergedEvents
        [⟨"", 1000000000, none, []⟩,
         ⟨"", 2000000000, some 2000000000,
          [("bar", ⟨none, none⟩), ("foo", ⟨none, none⟩)]⟩,
         ⟨"", 3000000000, some 2000000000, []⟩,
         ⟨"", 5000000000, some 2000000000,
          [("bar", ⟨none, none⟩), ("baz", ⟨none, none⟩)]⟩] "" =
      .ok [⟨"", 2000000000, some 5000000000,
            [("bar", ⟨none, none⟩), ("baz", ⟨none, none⟩),
             ("foo", ⟨none, none⟩)]⟩])
    ∧ (∀ (a d₁ d₂ : ℕ) (n₁ n₂ name : String) (m₁ m₂ : Meta),
        0 < d₁ → 0 < d₂ →
          Event.generateMergedEvents
              [⟨n₁, a, some d₁, m₁⟩, ⟨n₂, a + d₁, some d₂, m₂⟩] name =
            .ok [⟨name, a, some (d₁ + d₂),
                  mdOf [⟨n₁, a, some d₁, m₁⟩,
                        ⟨n₂, a + d₁, some d₂, m₂⟩]⟩])
    ∧ (∀ (a b d₁ d₂ : ℕ) (n₁ n₂ name : String) (m₁ m₂ : Meta),
        a < b → b < a + d₁ → a + d₁ < b + d₂ →
          Event.generateMergedEvents
              [⟨n₁, a, some d₁, m₁⟩, ⟨n₂, b, some d₂, m₂⟩] name =
            .ok [⟨name, a, some (b + d₂ - a),
                  mdOf [⟨n₁, a, some d₁, m₁⟩, ⟨n₂, b, some d₂, m₂⟩]⟩])
    ∧ (∀ (a b d₁ d₂ : ℕ) (n₁ n₂ name : String) (m₁ m₂ : Meta),
        0 < d₁ → 0 < d₂ → a + d₁ < b →
          Event.generateMergedEvents
              [⟨n₁, a, some d₁, m₁⟩, ⟨n₂, b, some d₂, m₂⟩] name =
            .ok [⟨name, a, some d₁,
                  mdOf [⟨n₁, a, some d₁, m₁⟩, ⟨n₂, b, some d₂, m₂⟩]⟩,
                 ⟨name, b, some d₂,
                  mdOf [⟨n₁, a, some d₁, m₁⟩, ⟨n₂, b, some d₂, m₂⟩]⟩])
    ∧ (∀ (ev : Event) (evs : List Event) (name : String),
        ev.duration = none →
          Except.map (List.map stripMeta)
              (Event.generateMergedEvents (ev :: evs) name) =
            Except.map (List.map stripMeta)
              (Event.generateMergedEvents evs name)) := by
  refine ⟨by decide, ?_, ?_, ?_, ?_⟩
  · intro a d₁ d₂ n₁ n₂ name m₁ m₂ h1 h2
    have hedges : edgesOf [⟨n₁, a, some d₁, m₁⟩, ⟨n₂, a + d₁, some d₂, m₂⟩] =
        [(a, [.start]), (a + d₁, [.stop, .start]),
         (a + d₁ + d₂, [.stop])] := by
      simp only [edgesOf, List.foldl_cons, List.foldl_nil]
      rw [show Event.endTime ⟨n₁, a, some d₁, m₁⟩ = a + d₁ from rfl,
        show Event.endTime ⟨n₂, a + d₁, some d₂, m₂⟩ = a + d₁ + d₂ from rfl]
      simp [EdgeMap.push, show ¬ a + d₁ < a from by omega,
        show ¬ a + d₁ = a from by omega,
        show ¬ a + d₁ + d₂ < a from by omega,
        show ¬ a + d₁ + d₂ = a from by omega,
        show ¬ a + d₁ + d₂ < a + d₁ from by omega,
        show ¬ a + d₁ + d₂ = a + d₁ from by omega]
    rw [generate_eq_sweep, hedges, sweepGo_eq_sweepSpec]
    rw [show profileOf [(a, [.start]), (a + d₁, [.stop, .start]),
        (a + d₁ + d₂, [.stop])] =
          [(a, 1), (a + d₁, 0), (a + d₁ + d₂, -1)] from rfl]
    simp only [sweepSpec]
    norm_num
    omega
  · intro a b d₁ d₂ n₁ n₂ name m₁ m₂ hab hba hend
    have hedges : edgesOf [⟨n₁, a, some d₁, m₁⟩, ⟨n₂, b, some d₂, m₂⟩] =
        [(a, [.start]), (b, [.start]), (a + d₁, [.stop]),
         (b + d₂, [.stop])] := by
      simp only [edgesOf, List.foldl_cons, List.foldl_nil]
      rw [show Event.endTime ⟨n₁, a, some d₁, m₁⟩ = a + d₁ from rfl,
        show Event.endTime ⟨n₂, b, some d₂, m₂⟩ = b + d₂ from rfl]
      simp [EdgeMap.push, show ¬ a + d₁ < a from by omega,
        show ¬ a + d₁ = a from by omega,
        show ¬ b < a from by omega, show ¬ b = a from by omega,
        hba,
        show ¬ b + d₂ < a from by omega, show ¬ b + d₂ = a from by omega,
        show ¬ b + d₂ < b from by omega, show ¬ b + d₂ = b from by omega,
        show ¬ b + d₂ < a + d₁ from by omega,
        show ¬ b + d₂ = a + d₁ from by omega]
    rw [generate_eq_sweep, hedges, sweepGo_eq_sweepSpec]
    rw [show profileOf [(a, [.start]), (b, [.start]), (a + d₁, [.stop]),
        (b + d₂, [.stop])] = [(a, 1), (b, 1), (a + d₁, -1), (b + d₂, -1)]
          from rfl]
    simp only [sweepSpec]
    norm_num
  · intro a b d₁ d₂ n₁ n₂ name m₁ m₂ h1 h2 hgap
    have hedges : edgesOf [⟨n₁, a, some d₁, m₁⟩, ⟨n₂, b, some d₂, m₂⟩] =
        [(a, [.start]), (a + d₁, [.stop]), (b, [.start]),
         (b + d₂, [.stop])] := by
      simp only [edgesOf, List.foldl_cons, List.foldl_nil]
      rw [show Event.endTime ⟨n₁, a, some d₁, m₁⟩ = a + d₁ from rfl,
        show Event.endTime ⟨n₂, b, some d₂, m₂⟩ = b + d₂ from rfl]
      simp [EdgeMap.push, show ¬ a + d₁ < a from by omega,
        show ¬ a + d₁ = a from by omega,
        show ¬ b < a from by omega, show ¬ b = a from by omega,
        show ¬ b < a + d₁ from by omega, show ¬ b = a + d₁ from by omega,
        show ¬ b + d₂ < a from by omega, show ¬ b + d₂ = a from by omega,
        show ¬ b + d₂ < a + d₁ from by omega,
        show ¬ b + d₂ = a + d₁ from by omega,
        show ¬ b + d₂ < b from by omega, show ¬ b + d₂ = b from by omega]
    rw [generate_eq_sweep, hedges, sweepGo_eq_sweepSpec]
    rw [show profileOf [(a, [.start]), (a + d₁, [.stop]), (b, [.start]),
        (b + d₂, [.stop])] = [(a, 1), (a + d₁, -1), (b, 1), (b + d₂, -1)]
          from rfl]
    simp only [sweepSpec]
    norm_num
  · intro ev evs name hinst
    apply generate_strip_eq_of_delta
    intro t
    simp only [eventsDelta, List.map_cons, List.sum_cons, Event.endTime,
      hinst]
    by_cases ht : t = ev.start
    · simp [ht]
    · simp [ht]

/-- Witness for C4 at concrete spans: touching [3,5) and [5,9), overlap
[0,4) and [2,6), gap [0,1) and [5,7), and an instantaneous event
prepended to one span. -/
theorem merge_intervals_behaviour_witness :
    Event.generateMergedEvents
        [⟨"p", 3, some 2, []⟩, ⟨"q", 3 + 2, some 4, []⟩] "m" =
      .ok [⟨"m", 3, some (2 + 4),
            mdOf [⟨"p", 3, some 2, []⟩, ⟨"q", 3 + 2, some 4, []⟩]⟩]
    ∧ Event.generateMergedEvents
        [⟨"p", 0, some 4, []⟩, ⟨"q", 2, some 4, []⟩] "m" =
      .ok [⟨"m", 0, some (2 + 4 - 0),
            mdOf [⟨"p", 0, some 4, []⟩, ⟨"q", 2, some 4, []⟩]⟩]
    ∧ Event.generateMergedEvents
        [⟨"p", 0, some 1, []⟩, ⟨"q", 5, some 2, []⟩] "m" =
      .ok [⟨"m", 0, some 1,
            mdOf [⟨"p", 0, some 1, []⟩, ⟨"q", 5, some 2, []⟩]⟩,
           ⟨"m", 5, some 2,
            mdOf [⟨"p", 0, some 1, []⟩, ⟨"q", 5, some 2, []⟩]⟩]
    ∧ Except.map (List.map stripMeta)
        (Event.generateMergedEvents
          [⟨"i", 9, none, []⟩, ⟨"p", 0, some 2, []⟩] "m") =
      Except.map (List.map stripMeta)
        (Event.generateMergedEvents [⟨"p", 0, some 2, []⟩] "m") :=
  ⟨merge_intervals_behaviour.2.1 3 2 4 "p" "q" "m" [] [] (by decide)
     (by decide),
   merge_intervals_behaviour.2.2.1 0 2 4 4 "p" "q" "m" [] [] (by decide)
     (by decide) (by decide),
   merge_intervals_behaviour.2.2.2.1 0 5 1 2 "p" "q" "m" [] [] (by decide)
     (by decide) (by decide),
   merge_intervals_behaviour.2.2.2.2 ⟨"i", 9, none, []⟩
     [⟨"p", 0, some 2, []⟩] "m" rfl⟩

end PerfAnalysis
